import Mathlib

/-!
# DES password search: sequential and OpenMP search, experiment driver

A shallow embedding of `hash_utils.cpp`, `sequential_decryption.cpp`,
`parallel_decryption.cpp`, `metrics_handler.cpp` and the part of `main.cpp` that
consumes the parallel results, followed by the theorems that settle the claims
of the specification.

Conventions of the embedding:

* a `std::string` is a Lean `String` whose characters stand for its bytes
  (`strBytes` reads a character as `toNat % 256`); a `std::vector<std::string>`
  is a `List String`;
* `int` and `size_t` values are `Nat`; the list sizes and positions handled by
  the program stay far below `2^31`, so no wrap-around is modelled;
* the DES block cipher of OpenSSL (`DES_set_key`, `DES_ecb_encrypt`) is not
  code of this repository: it is the parameter `DESPrimitive`;
* the readings of `chrono::high_resolution_clock` are an input of the drivers
  (`elapsed`), with durations as rationals;
* in `metrics_handler.cpp` a `double` is a `Double` (finite, infinite or NaN)
  and the arithmetic on finite values is the parameter `FloatArith`.
-/

namespace DESPasswordDecryption

/-! ## Digest adapter (`hash_utils.cpp`) -/

/-- The two OpenSSL calls used by `generateDESHash`. A block, a key and a key
schedule are lists of bytes. `DES_ecb_encrypt input ks` is the output block of
encrypting `input` under the key schedule `ks`. -/
structure DESPrimitive where
  DES_set_key : List Nat → List Nat
  DES_ecb_encrypt : List Nat → List Nat → List Nat

/-- The `static thread_local` variables of `generateDESHash`. -/
structure KeyCache where
  initialized : Bool
  current_salt : String
  key_schedule : List Nat

/-- The thread-local state of a thread that has not called `generateDESHash` yet. -/
def KeyCache.fresh : KeyCache :=
  { initialized := false, current_salt := "", key_schedule := [] }

/-- The bytes of a string. -/
def strBytes (s : String) : List Nat :=
  s.toList.map fun c => c.toNat % 256

/-- The result of `memcpy(key, salt.c_str(), 8)`: the first 8 bytes of the salt.
For a salt of fewer than 7 bytes the source reads past the terminating NUL; the
model reads zeros there. -/
def saltKey (salt : String) : List Nat :=
  (strBytes salt ++ List.replicate 8 0).take 8

/-- The block `DES_cblock input = { 0 }` after
`memcpy(input, password.c_str(), std::min(password.size(), size_t(8)))`. -/
def inputBlock (password : String) : List Nat :=
  let k := min password.length 8
  (strBytes password).take k ++ List.replicate (8 - k) 0

/-- The loop `sprintf_s(hex_output + (i * 2), 3, "%02x", (unsigned char) output[i])`
for `i = 0 .. 7`, and `std::string(hex_output, 16)`. -/
def hexOutput (output : List Nat) : String :=
  String.mk ((List.range 8).flatMap fun i =>
    [Nat.digitChar (output.getD i 0 % 256 / 16), Nat.digitChar (output.getD i 0 % 256 % 16)])

/-- The function `generateDESHash` of `hash_utils.cpp`, with the thread-local
cache passed in and out. -/
def generateDESHash (des : DESPrimitive) (cache : KeyCache) (password salt : String) :
    String × KeyCache :=
  let cache1 : KeyCache :=
    if !cache.initialized || cache.current_salt != salt then
      { initialized := true, current_salt := salt,
        key_schedule := des.DES_set_key (saltKey salt) }
    else cache
  (hexOutput (des.DES_ecb_encrypt (inputBlock password) cache1.key_schedule), cache1)

/-- The cache states a thread can be in: nothing cached, or the key schedule of
the salt of the last call. -/
def KeyCache.Valid (des : DESPrimitive) (cache : KeyCache) : Prop :=
  cache.initialized = true → cache.key_schedule = des.DES_set_key (saltKey cache.current_salt)

/-- The token `generateDESHash` returns, taken as a function of candidate and
salt: the call made by a thread with nothing cached. By
`generateDESHash_eq_fingerprint` every call made by any thread returns this
token, so the search functions below are written with it. -/
def fingerprint (des : DESPrimitive) (password salt : String) : String :=
  (generateDESHash des KeyCache.fresh password salt).1

/-- A block of 8 bytes. -/
def IsBlock (b : List Nat) : Prop :=
  b.length = 8 ∧ ∀ x ∈ b, x < 256

/-- What the search claims use of DES: under the key schedule of `salt`,
encryption maps blocks to blocks and is one-to-one on blocks (DES under a fixed
key is a permutation of the 64-bit blocks). -/
def DESPrimitive.IsBlockCipher (des : DESPrimitive) (salt : String) : Prop :=
  (∀ b, IsBlock b → IsBlock (des.DES_ecb_encrypt b (des.DES_set_key (saltKey salt)))) ∧
  ∀ b b', IsBlock b → IsBlock b' →
    des.DES_ecb_encrypt b (des.DES_set_key (saltKey salt)) =
      des.DES_ecb_encrypt b' (des.DES_set_key (saltKey salt)) → b = b'

/-- A stand-in for the DES primitive, used to run the model on concrete inputs:
the key schedule is the key, encryption XORs the block with it bytewise. -/
def xorCipher : DESPrimitive where
  DES_set_key := fun key => key
  DES_ecb_encrypt := fun input ks => List.zipWith (fun x k => x ^^^ k) input ks

/-! ## Sequential search (`sequential_decryption.cpp`) -/

/-- The function `decryptPassword`: the first word of the list whose hash is
`encrypted_password`, or the message "Password Not Found!". The call
`generateDESHash(word, salt)` is written `fingerprint des word salt`, the token
it returns in every valid state of the thread-local cache. -/
def decryptPassword (des : DESPrimitive) (encrypted_password salt : String) :
    List String → String
  | [] => "Password Not Found!"
  | word :: rest =>
    if fingerprint des word salt = encrypted_password then word
    else decryptPassword des encrypted_password salt rest

/-! ## Parallel search (`parallel_decryption.cpp`)

`openMPDecryption` is a step relation over the loop iterations of the threads
of the parallel region. The shared variables are `found` and
`decrypted_password`; `next` is the bookkeeping of `schedule(dynamic, chunk_size)`:
the first loop index not handed out yet. A thread holds the chunk
`[cur, stop)` of indices it still has to run. One iteration is one or two steps
of its thread: reading `found` and, when it is false, hashing and comparing
(private to the thread); then, after a match, the `critical` region, which runs
as one step because the region is mutually exclusive. A read of `found` returns
its current value. An interleaving is the list of the threads that move, in
order; the region ends when no thread can move (the barrier at the end of the
loop), and the function returns `decrypted_password` then. -/

/-- The loop state of one thread of the team. `matched` holds between the
comparison `hash == encrypted_password` succeeding at index `cur` and the thread
entering the critical region. -/
structure Worker where
  cur : Nat
  stop : Nat
  matched : Bool

/-- The state of the parallel region. -/
structure OmpState where
  found : Bool
  decrypted_password : String
  next : Nat
  workers : Nat → Worker

/-- The state on entry to the parallel region. -/
def ompInit : OmpState where
  found := false
  decrypted_password := "Password Not Found!"
  next := 0
  workers := fun _ => { cur := 0, stop := 0, matched := false }

section Parallel

variable (des : DESPrimitive) (encrypted_password salt : String)
  (password_list : List String) (num_threads chunk_size : Nat)

/-- One step of thread `t`, or `none` when `t` is no thread of the team or has
left the loop. -/
def ompStep (s : OmpState) (t : Nat) : Option OmpState :=
  if t < num_threads then
    let w := s.workers t
    if w.matched then
      -- #pragma omp critical { if (!found) { found = true; decrypted_password = password_list[i]; } }
      let w1 : Worker := { w with cur := w.cur + 1, matched := false }
      if s.found then
        some { s with workers := Function.update s.workers t w1 }
      else
        some { s with
          found := true
          decrypted_password := password_list.getD w.cur ""
          workers := Function.update s.workers t w1 }
    else if w.cur < w.stop then
      -- the loop body at i = w.cur, up to the comparison
      if s.found then
        some { s with workers := Function.update s.workers t { w with cur := w.cur + 1 } }
      else if fingerprint des (password_list.getD w.cur "") salt = encrypted_password then
        some { s with workers := Function.update s.workers t { w with matched := true } }
      else
        some { s with workers := Function.update s.workers t { w with cur := w.cur + 1 } }
    else if s.next < password_list.length then
      -- schedule(dynamic, chunk_size): take the next chunk
      some { s with
        next := s.next + chunk_size
        workers := Function.update s.workers t
          { cur := s.next, stop := min (s.next + chunk_size) password_list.length,
            matched := false } }
    else none
  else none

/-- The steps of a schedule (the list of the threads that move, in order), run
from `s`; `none` when a thread of the schedule cannot move at its turn. -/
def ompRun : List Nat → OmpState → Option OmpState
  | [], s => some s
  | t :: ts, s =>
    match ompStep des encrypted_password salt password_list num_threads chunk_size s t with
    | none => none
    | some s1 => ompRun ts s1

/-- Every thread of the team has left the loop: the end of the parallel region. -/
def ompFinished (s : OmpState) : Bool :=
  (List.range num_threads).all fun t =>
    (ompStep des encrypted_password salt password_list num_threads chunk_size s t).isNone

/-- The function `openMPDecryption` under the interleaving `sched`: the value of
`decrypted_password` when the schedule runs the region to its end, `none` when
`sched` is not a complete execution. -/
def openMPDecryption (sched : List Nat) : Option String :=
  match ompRun des encrypted_password salt password_list num_threads chunk_size sched ompInit with
  | none => none
  | some s =>
    if ompFinished des encrypted_password salt password_list num_threads chunk_size s then
      some s.decrypted_password
    else none

/-- The step of thread `t` at `s` executes the assignment
`decrypted_password = password_list[i]`. -/
def ompWrites (s : OmpState) (t : Nat) : Bool :=
  decide (t < num_threads) && (s.workers t).matched && !s.found

/-- The number of steps of the schedule, run from `s`, that assign
`decrypted_password`. -/
def ompWriteCount : List Nat → OmpState → Nat
  | [], _ => 0
  | t :: ts, s =>
    match ompStep des encrypted_password salt password_list num_threads chunk_size s t with
    | none => 0
    | some s1 => (if ompWrites num_threads s t then 1 else 0) + ompWriteCount ts s1

/-- The candidate at index `i` has the target fingerprint. -/
def IsMatch (i : Nat) : Prop :=
  fingerprint des (password_list.getD i "") salt = encrypted_password

/-- The invariant of the parallel region, for any number of threads: the result
slot holds the sentinel until `found` is set and a matching candidate after;
the chunk of every thread lies in the list, and a thread waiting for the
critical region waits at a matching index; every matching index is still to be
handed out or lies in the chunk of a thread, unless `found` is set. -/
structure OmpInv (s : OmpState) : Prop where
  sentinel : s.found = false → s.decrypted_password = "Password Not Found!"
  winner : s.found = true → ∃ i, i < password_list.length ∧
    IsMatch des encrypted_password salt password_list i ∧
    s.decrypted_password = password_list.getD i ""
  chunk : ∀ t, t < num_threads →
    (s.workers t).cur ≤ (s.workers t).stop ∧ (s.workers t).stop ≤ password_list.length ∧
    ((s.workers t).matched = true → (s.workers t).cur < (s.workers t).stop ∧
      IsMatch des encrypted_password salt password_list (s.workers t).cur)
  covered : ∀ i, i < password_list.length →
    IsMatch des encrypted_password salt password_list i →
    s.found = true ∨ s.next ≤ i ∨
      ∃ t, t < num_threads ∧ (s.workers t).cur ≤ i ∧ i < (s.workers t).stop

/-- The invariant of the region run by one thread: the thread walks the list in
order, so while `found` is unset nothing below its index matches, and once
`found` is set the result is the candidate at the lowest matching index. -/
structure OneThreadInv (s : OmpState) : Prop where
  sentinel : s.found = false → s.decrypted_password = "Password Not Found!"
  below : s.found = false → ∀ j, j < (s.workers 0).cur →
    ¬ IsMatch des encrypted_password salt password_list j
  first : s.found = true → ∃ i, i < password_list.length ∧
    IsMatch des encrypted_password salt password_list i ∧
    (∀ j, j < i → ¬ IsMatch des encrypted_password salt password_list j) ∧
    s.decrypted_password = password_list.getD i ""
  chunk : (s.workers 0).cur ≤ (s.workers 0).stop ∧
    (s.workers 0).stop = min s.next password_list.length
  waiting : (s.workers 0).matched = true → (s.workers 0).cur < (s.workers 0).stop ∧
    IsMatch des encrypted_password salt password_list (s.workers 0).cur

/-- The work left for one thread: its chunk in hand, and the comparison of the
index it stands at. -/
def Worker.work (w : Worker) : Nat :=
  3 * (w.stop - w.cur) + (if w.matched then 0 else 1)

/-- The work left in the region: the indices not handed out yet and the work of
the threads of the team. Every step makes it smaller. -/
def ompWork (s : OmpState) : Nat :=
  4 * (password_list.length - s.next) +
    Finset.sum (Finset.range num_threads) fun t => (s.workers t).work

end Parallel

/-! ## Experiment driver (`testSequential`, `testParallel`, `main`)

The drivers are embedded with a log of the searches they run: one record per
trial, holding the arguments handed to the search and the duration the clock
reported for it. The clock is the input `elapsed`: `elapsed k` is the duration
measured for the trial numbered `k` (in `testSequential` the loop index `i`, in
`testParallel` the number of trials run before it, over all configurations).
Console output is left out. -/

/-- The call `v.insert(v.begin() + pos, x)` of `std::vector`, for `pos <= v.size()`. -/
def vectorInsert (v : List String) (pos : Nat) (x : String) : List String :=
  v.take pos ++ x :: v.drop pos

/-- The call `v.erase(v.begin() + pos)` of `std::vector`, for `pos < v.size()`. -/
def vectorErase (v : List String) (pos : Nat) : List String :=
  v.take pos ++ v.drop (pos + 1)

/-- The struct `SequentialResult`. -/
structure SequentialResult where
  mean_time : ℚ
  execution_times : List ℚ
  position : Nat

/-- One trial of `testSequential`: the loop index, the list handed to
`decryptPassword`, the target fingerprint, the value returned and the duration. -/
structure SeqTrial where
  i : Nat
  searched : List String
  encrypted_password : String
  result : String
  elapsed : ℚ

/-- The vector `positions` of `testSequential`: `i * step` for `i < executions - 1`
with `step = password_list.size() / executions`, then `password_list.size()`. -/
def seqPositions (list_size executions : Nat) : List Nat :=
  (List.range (executions - 1)).map (fun i => i * (list_size / executions)) ++ [list_size]

/-- The body of the trial loop of `testSequential` at index `i`, on the current
list and log. -/
def seqTrial (des : DESPrimitive) (password salt : String) (positions : List Nat)
    (executions : Nat) (elapsed : Nat → ℚ) (st : List String × List SeqTrial) (i : Nat) :
    List String × List SeqTrial :=
  let password_list1 :=
    if i < executions - 1 then vectorInsert st.1 (positions.getD i 0) password else st.1
  let encrypted_password := fingerprint des password salt
  let result := decryptPassword des encrypted_password salt password_list1
  let password_list2 :=
    if i < executions - 1 then vectorErase password_list1 (positions.getD i 0)
    else password_list1
  (password_list2,
    st.2 ++ [{ i := i, searched := password_list1, encrypted_password := encrypted_password,
               result := result, elapsed := elapsed i }])

/-- The trial loop of `testSequential`: the list after the last trial and the log. -/
def testSequentialRun (des : DESPrimitive) (password salt : String)
    (password_list : List String) (executions : Nat) (elapsed : Nat → ℚ) :
    List String × List SeqTrial :=
  (List.range executions).foldl
    (seqTrial des password salt (seqPositions password_list.length executions) executions elapsed)
    (password_list, [])

/-- The function `testSequential`. The durations are rationals and `mean_time`
is their mean without the rounding of the `double` sum and quotient of the
source; the theorems below read `execution_times` and `position` only. -/
def testSequential (des : DESPrimitive) (password salt : String)
    (password_list : List String) (executions : Nat) (elapsed : Nat → ℚ) : SequentialResult :=
  let positions := seqPositions password_list.length executions
  let execution_times :=
    (testSequentialRun des password salt password_list executions elapsed).2.map (·.elapsed)
  { mean_time := execution_times.sum / execution_times.length
    execution_times := execution_times
    position := positions.getD (positions.length - 1) 0 }

/-- The struct `ParallelResult`. -/
structure ParallelResult where
  mean_times : List ℚ
  execution_times : List ℚ
  position : Nat
  chunk_sizes : List Nat

/-- One trial of `testParallel`: the configuration, the loop index, the list
handed to `openMPDecryption`, the target fingerprint and the duration. -/
structure ParTrial where
  num_threads : Nat
  chunk_size : Nat
  i : Nat
  searched : List String
  encrypted_password : String
  elapsed : ℚ

/-- The vector `positions` of `testParallel`:
`(list_size / executions) * i + (list_size / executions / 2)` for `i < executions`. -/
def parPositions (list_size executions : Nat) : List Nat :=
  (List.range executions).map fun i =>
    (list_size / executions) * i + (list_size / executions / 2)

/-- The body of the trial loop of `testParallel` at index `i`, on the current
list, the `execution_times` of the configuration and the log. -/
def parTrial (des : DESPrimitive) (password salt : String) (positions : List Nat)
    (executions num_threads chunk_size : Nat) (elapsed : Nat → ℚ)
    (st : List String × List ℚ × List ParTrial) (i : Nat) :
    List String × List ℚ × List ParTrial :=
  let password_list1 :=
    if i < executions - 1 then vectorInsert st.1 (positions.getD i 0) password else st.1
  let encrypted_password := fingerprint des password salt
  let time := elapsed st.2.2.length
  let password_list2 :=
    if i < executions - 1 then vectorErase password_list1 (positions.getD i 0)
    else password_list1
  (password_list2, st.2.1 ++ [time],
    st.2.2 ++ [{ num_threads := num_threads, chunk_size := chunk_size, i := i,
                 searched := password_list1, encrypted_password := encrypted_password,
                 elapsed := time }])

/-- The body of the loop over `chunk_sizes` of `testParallel`: the trials of one
configuration, then the update of `thread_result`. As in `testSequential` the
entry pushed to `mean_times` is the mean without rounding; the theorems below
read `execution_times`, `chunk_sizes` and the log only. -/
def parChunk (des : DESPrimitive) (password salt : String) (executions num_threads : Nat)
    (elapsed : Nat → ℚ) (st : List String × ParallelResult × List ParTrial) (chunk_size : Nat) :
    List String × ParallelResult × List ParTrial :=
  let positions := parPositions st.1.length executions
  let run := (List.range executions).foldl
    (parTrial des password salt positions executions num_threads chunk_size elapsed)
    (st.1, [], st.2.2)
  let execution_times := run.2.1
  let mean_time := execution_times.sum / execution_times.length
  (run.1,
    { mean_times := st.2.1.mean_times ++ [mean_time]
      execution_times := execution_times
      position := positions.getD (positions.length - 1) 0
      chunk_sizes := st.2.1.chunk_sizes ++ [chunk_size] },
    run.2.2)

/-- The body of the loop over `thread_counts` of `testParallel`. -/
def parThreads (des : DESPrimitive) (password salt : String) (executions : Nat)
    (elapsed : Nat → ℚ) (st : List String × List ParallelResult × List ParTrial)
    (num_threads : Nat) : List String × List ParallelResult × List ParTrial :=
  let run := [500, 1000, 2000, 4000].foldl
    (parChunk des password salt executions num_threads elapsed)
    (st.1, { mean_times := [], execution_times := [], position := 0, chunk_sizes := [] }, st.2.2)
  (run.1, st.2.1 ++ [run.2.1], run.2.2)

/-- The loops of `testParallel`: the list after the last trial, `all_results`
and the log. -/
def testParallelRun (des : DESPrimitive) (password salt : String) (password_list : List String)
    (thread_counts : List Nat) (executions : Nat) (elapsed : Nat → ℚ) :
    List String × List ParallelResult × List ParTrial :=
  thread_counts.foldl (parThreads des password salt executions elapsed) (password_list, [], [])

/-- The function `testParallel`. -/
def testParallel (des : DESPrimitive) (password salt : String) (password_list : List String)
    (thread_counts : List Nat) (executions : Nat) (elapsed : Nat → ℚ) : List ParallelResult :=
  (testParallelRun des password salt password_list thread_counts executions elapsed).2.1

/-- The durations the trials of the configuration `(num_threads, chunk_size)` measured. -/
def configTimes (log : List ParTrial) (num_threads chunk_size : Nat) : List ℚ :=
  (log.filter fun tr => tr.num_threads == num_threads && tr.chunk_size == chunk_size).map
    (·.elapsed)

/-- The loop of `main` over the parallel results: for each `i` and `j`, the
arguments `num_threads`, `chunk_size` and `execution_times` of the call of
`appendTestMetrics` that builds the statistics row of the configuration. -/
def mainParallelRows (thread_counts : List Nat) (parallel_results : List ParallelResult) :
    List (Nat × Nat × List ℚ) :=
  (List.range thread_counts.length).flatMap fun i =>
    (List.range ((parallel_results.getD i ⟨[], [], 0, []⟩).chunk_sizes.length)).map fun j =>
      (thread_counts.getD i 0,
        (parallel_results.getD i ⟨[], [], 0, []⟩).chunk_sizes.getD j 0,
        (parallel_results.getD i ⟨[], [], 0, []⟩).execution_times)

/-- What the log keeps of a sequential trial besides the duration. -/
def SeqTrial.call (tr : SeqTrial) : Nat × List String × String × String :=
  (tr.i, tr.searched, tr.encrypted_password, tr.result)

/-- What the log keeps of a parallel trial besides the duration. -/
def ParTrial.call (tr : ParTrial) : Nat × Nat × Nat × List String × String :=
  (tr.num_threads, tr.chunk_size, tr.i, tr.searched, tr.encrypted_password)

/-- The list the specification gives for trial `i` of `testSequential`: the
original list with the target inserted at index `floor(n/e) * i`, and the
original list for the final trial. -/
def seqSearched (password : String) (password_list : List String) (executions i : Nat) :
    List String :=
  if i < executions - 1 then
    vectorInsert password_list (password_list.length / executions * i) password
  else password_list

/-- The list the specification gives for trial `i` of `testParallel`: the
original list with the target inserted at index
`floor(n/e) * i + floor(floor(n/e) / 2)`, and the original list for the final
trial. -/
def parSearched (password : String) (password_list : List String) (executions i : Nat) :
    List String :=
  if i < executions - 1 then
    vectorInsert password_list
      (password_list.length / executions * i + password_list.length / executions / 2) password
  else password_list

/-! ## Statistics and report (`metrics_handler.cpp`)

A `double` is the type `Double`: a finite value (a rational), one of the two
infinities, or NaN. Comparisons and the treatment of infinities and NaN follow
IEEE 754. The results of the arithmetic on finite operands, where rounding and
overflow happen, are the parameter `FloatArith`; `binary64` is IEEE 754 double
precision with round-to-nearest-even, `exactArith` is arithmetic without
rounding. The two zeros are one value, read as `+0.0` when it divides. The
report is embedded as its header line and the list of its data rows, each row
holding the values that are printed. -/

/-- A value of type `double`. -/
inductive Double where
  | finite (q : ℚ)
  | posInf
  | negInf
  | nan
deriving DecidableEq

namespace Double

/-- The library function `std::isfinite`. -/
def isfinite : Double → Bool
  | finite _ => true
  | _ => false

/-- The comparison `x < y` of two doubles: false when one of them is NaN. -/
def lt : Double → Double → Bool
  | finite a, finite b => decide (a < b)
  | finite _, posInf => true
  | negInf, finite _ => true
  | negInf, posInf => true
  | _, _ => false

/-- The comparison `x <= y` of two doubles: false when one of them is NaN. -/
def le : Double → Double → Bool
  | finite a, finite b => decide (a ≤ b)
  | finite _, posInf => true
  | negInf, finite _ => true
  | negInf, posInf => true
  | posInf, posInf => true
  | negInf, negInf => true
  | _, _ => false

/-- The negation `-x`. -/
def neg : Double → Double
  | finite q => finite (-q)
  | posInf => negInf
  | negInf => posInf
  | nan => nan

end Double

/-- The arithmetic of the machine on finite operands: sum, difference, quotient
(by a divisor that is not zero), `std::pow(x, 2)` and `std::sqrt` (of an
argument that is not negative). A result may be rounded, or overflow to an
infinity. -/
structure FloatArith where
  add : ℚ → ℚ → Double
  sub : ℚ → ℚ → Double
  div : ℚ → ℚ → Double
  sq : ℚ → Double
  sqrt : ℚ → Double

namespace FloatArith

/-- The sum `x + y` of two doubles. -/
def plus (A : FloatArith) : Double → Double → Double
  | Double.finite a, Double.finite b => A.add a b
  | Double.nan, _ => Double.nan
  | _, Double.nan => Double.nan
  | Double.posInf, Double.negInf => Double.nan
  | Double.negInf, Double.posInf => Double.nan
  | Double.posInf, _ => Double.posInf
  | _, Double.posInf => Double.posInf
  | Double.negInf, _ => Double.negInf
  | _, Double.negInf => Double.negInf

/-- The difference `x - y` of two doubles. -/
def minus (A : FloatArith) : Double → Double → Double
  | Double.finite a, Double.finite b => A.sub a b
  | Double.nan, _ => Double.nan
  | _, Double.nan => Double.nan
  | Double.posInf, Double.posInf => Double.nan
  | Double.negInf, Double.negInf => Double.nan
  | Double.posInf, _ => Double.posInf
  | _, Double.negInf => Double.posInf
  | Double.negInf, _ => Double.negInf
  | _, Double.posInf => Double.negInf

/-- The quotient `x / y` of two doubles; a zero divisor is `+0.0`. -/
def divide (A : FloatArith) : Double → Double → Double
  | Double.finite a, Double.finite b =>
    if b = 0 then
      if a = 0 then Double.nan else if 0 < a then Double.posInf else Double.negInf
    else A.div a b
  | Double.nan, _ => Double.nan
  | _, Double.nan => Double.nan
  | Double.finite _, _ => Double.finite 0
  | Double.posInf, Double.finite b => if 0 ≤ b then Double.posInf else Double.negInf
  | Double.negInf, Double.finite b => if 0 ≤ b then Double.negInf else Double.posInf
  | _, _ => Double.nan

/-- The call `std::pow(x, 2)`. -/
def pow2 (A : FloatArith) : Double → Double
  | Double.finite a => A.sq a
  | Double.nan => Double.nan
  | _ => Double.posInf

/-- The call `std::sqrt(x)`. -/
def sqrtD (A : FloatArith) : Double → Double
  | Double.finite a => if a < 0 then Double.nan else A.sqrt a
  | Double.posInf => Double.posInf
  | _ => Double.nan

end FloatArith

/-- What the statistics claims use of the arithmetic on finite operands, all of
it true of IEEE 754: a sum, a difference and a quotient of finite values are
never NaN; sums of values that are not negative, squares, quotients of a value
that is not negative by a positive one and square roots are not negative; and
0 divided by a value that is not 0 is 0. -/
structure FloatArith.Sound (A : FloatArith) : Prop where
  add_ne_nan : ∀ a b, A.add a b ≠ Double.nan
  sub_ne_nan : ∀ a b, A.sub a b ≠ Double.nan
  div_ne_nan : ∀ a b, b ≠ 0 → A.div a b ≠ Double.nan
  add_nonneg : ∀ a b, 0 ≤ a → 0 ≤ b → (Double.finite 0).le (A.add a b) = true
  sq_nonneg : ∀ a, (Double.finite 0).le (A.sq a) = true
  div_nonneg : ∀ a b, 0 ≤ a → 0 < b → (Double.finite 0).le (A.div a b) = true
  sqrt_nonneg : ∀ a, 0 ≤ a → (Double.finite 0).le (A.sqrt a) = true
  zero_div : ∀ b, b ≠ 0 → A.div 0 b = Double.finite 0

/-- Arithmetic without rounding; the square root is exact on the squares of
rationals. -/
def exactArith : FloatArith where
  add := fun a b => Double.finite (a + b)
  sub := fun a b => Double.finite (a - b)
  div := fun a b => Double.finite (a / b)
  sq := fun a => Double.finite (a * a)
  sqrt := fun a => Double.finite (Rat.sqrt a)

/-- The rational `2^e`. -/
def twoPow (e : Int) : ℚ :=
  if 0 ≤ e then ((2 ^ e.toNat : Nat) : ℚ) else 1 / ((2 ^ (-e).toNat : Nat) : ℚ)

/-- The number of halvings that bring `n` below 2, at most `fuel` of them. -/
def log2Fuel : Nat → Nat → Nat
  | 0, _ => 0
  | fuel + 1, n => if 2 ≤ n then log2Fuel fuel (n / 2) + 1 else 0

/-- The exponent `k` with `2^k <= n < 2^(k+1)`, for `n > 0`. -/
def natLog2 (n : Nat) : Nat :=
  log2Fuel n n

/-- The greatest number of the form `acc + (bits below k)` whose square is at
most `n`. -/
def sqrtBits : Nat → Nat → Nat → Nat
  | 0, _, acc => acc
  | k + 1, n, acc =>
    sqrtBits k n (if (acc + 2 ^ k) * (acc + 2 ^ k) ≤ n then acc + 2 ^ k else acc)

/-- The integer part of the square root of `n`. -/
def natSqrt (n : Nat) : Nat :=
  sqrtBits (natLog2 n / 2 + 1) n 0

/-- The exponent `e` with `2^e <= a < 2^(e+1)`, for `a > 0`. -/
def binade (a : ℚ) : Int :=
  let e0 : Int := (natLog2 a.num.toNat : Int) - (natLog2 a.den : Int)
  if twoPow e0 ≤ a then e0 else e0 - 1

/-- The integer nearest to `x >= 0`, the even one of the two when `x` lies
halfway. -/
def roundNearestEven (x : ℚ) : Nat :=
  let f : Nat := x.num.toNat / x.den
  let r : ℚ := x - f
  if r < 1 / 2 then f else if 1 / 2 < r then f + 1 else if f % 2 = 0 then f else f + 1

/-- The double nearest to `a > 0`: 53 significant bits, exponents from -1022,
infinity from `2^1024` on. -/
def round64pos (a : ℚ) : Double :=
  let e := max (binade a) (-1022)
  let quantum := twoPow (e - 52)
  let r := (roundNearestEven (a / quantum) : ℚ) * quantum
  if twoPow 1024 ≤ r then Double.posInf else Double.finite r

/-- The double nearest to the rational `q` (round to nearest, ties to even). -/
def round64 (q : ℚ) : Double :=
  if q = 0 then Double.finite 0
  else if 0 < q then round64pos q
  else (round64pos (-q)).neg

/-- The double nearest to the square root of `q >= 0`. -/
def sqrt64 (q : ℚ) : Double :=
  if q ≤ 0 then Double.finite 0
  else
    let quantum := twoPow (binade q / 2 - 52)
    let x := q / (quantum * quantum)
    let f : Nat := natSqrt (x.num.toNat / x.den)
    let h : ℚ := (f : ℚ) + 1 / 2
    let n : Nat := if x < h * h then f else if h * h < x then f + 1
      else if f % 2 = 0 then f else f + 1
    Double.finite ((n : ℚ) * quantum)

/-- IEEE 754 double precision: every operation returns the double nearest to
the exact result. -/
def binary64 : FloatArith where
  add := fun a b => round64 (a + b)
  sub := fun a b => round64 (a - b)
  div := fun a b => round64 (a / b)
  sq := fun a => round64 (a * a)
  sqrt := sqrt64

/-- The struct `TestMetrics`. -/
structure TestMetrics where
  num_threads : Int
  chunk_size : Int
  min_time : Double
  max_time : Double
  mean_time : Double
  stddev : Double
  speedup : Double
  efficiency : Double
  password_position : Int
  total_passwords : Int
deriving DecidableEq

/-- The function `MetricsHandler::appendTestMetrics`: the metrics vector after
the call. -/
def appendTestMetrics (A : FloatArith) (metrics_vector : List TestMetrics)
    (execution_times : List Double) (num_threads chunk_size : Int) (sequential_time : Double)
    (password_position total_passwords : Int) : List TestMetrics :=
  match execution_times with
  | [] => metrics_vector
  | first :: rest =>
    -- std::min_element, std::max_element
    let min_time := rest.foldl (fun m x => if x.lt m then x else m) first
    let max_time := rest.foldl (fun m x => if m.lt x then x else m) first
    let size := Double.finite ((first :: rest).length : ℚ)
    -- std::accumulate(begin, end, 0.0) / size
    let mean_time := A.divide ((first :: rest).foldl A.plus (Double.finite 0)) size
    let variance := (first :: rest).foldl
      (fun v time =>
        if time.isfinite then A.plus v (A.pow2 (A.minus time mean_time)) else v)
      (Double.finite 0)
    let stddev := A.sqrtD (A.divide variance size)
    let valid := (Double.finite 0).lt sequential_time && (Double.finite 0).lt mean_time
    let speedup := if valid then A.divide sequential_time mean_time else Double.finite 0
    let efficiency :=
      if valid then A.divide speedup (Double.finite (num_threads : ℚ)) else Double.finite 0
    metrics_vector ++
      [{ num_threads := num_threads, chunk_size := chunk_size, min_time := min_time,
         max_time := max_time, mean_time := mean_time, stddev := stddev, speedup := speedup,
         efficiency := efficiency, password_position := password_position,
         total_passwords := total_passwords }]

/-- The population standard deviation of the specification, in the arithmetic
of the machine: the square root of the sum of the squared deviations of all
samples from `mean`, divided by their number. -/
def populationStddev (A : FloatArith) (xs : List Double) (mean : Double) : Double :=
  A.sqrtD (A.divide
    (xs.foldl (fun v x => A.plus v (A.pow2 (A.minus x mean))) (Double.finite 0))
    (Double.finite (xs.length : ℚ)))

/-- A data row of the report: the values printed, in column order. -/
structure CsvRow where
  test_type : String
  num_threads : Int
  chunk_size : Int
  min_time : Double
  max_time : Double
  mean_time : Double
  stddev : Double
  speedup : Double
  efficiency : Double
  password_position : Int
  total_passwords : Int
deriving DecidableEq

/-- The call `std::max(0.0, x)`: `x` when `0.0 < x`, else `0.0`. -/
def max0 (x : Double) : Double :=
  if (Double.finite 0).lt x then x else Double.finite 0

/-- The body of the two row loops of `saveMetricsToCSV`: the row written for
`metric`, or `none` when the check of `std::isfinite` fails. -/
def csvRow (test_type : String) (metric : TestMetrics) : Option CsvRow :=
  if metric.min_time.isfinite && metric.max_time.isfinite &&
      metric.mean_time.isfinite && metric.stddev.isfinite then
    some { test_type := test_type, num_threads := metric.num_threads,
           chunk_size := metric.chunk_size, min_time := max0 metric.min_time,
           max_time := max0 metric.max_time, mean_time := max0 metric.mean_time,
           stddev := max0 metric.stddev, speedup := max0 metric.speedup,
           efficiency := max0 metric.efficiency,
           password_position := metric.password_position,
           total_passwords := metric.total_passwords }
  else none

/-- The function `MetricsHandler::saveMetricsToCSV`: the header line and the
data rows written to the file, in order. -/
def saveMetricsToCSV (sequential_metrics : List TestMetrics)
    (parallel_metrics : List (List TestMetrics)) : String × List CsvRow :=
  ("test_type,num_threads,chunk_size,min_time,max_time,mean_time,stddev,speedup,efficiency," ++
      "password_position,total_passwords",
    sequential_metrics.filterMap (csvRow "sequential") ++
      parallel_metrics.flatMap fun thread_metrics =>
        thread_metrics.filterMap (csvRow "parallel"))

/-- The thread-local cache after a sequence of calls of `generateDESHash`, given
as the list of their arguments `(password, salt)`. -/
def cacheAfter (des : DESPrimitive) (cache : KeyCache) : List (String × String) → KeyCache
  | [] => cache
  | call :: calls => cacheAfter des (generateDESHash des cache call.1 call.2).2 calls

/-! ## Theorems -/

/-! ### The digest adapter as a function of candidate and salt -/

theorem KeyCache.valid_fresh (des : DESPrimitive) : KeyCache.fresh.Valid des := by
  intro h
  simp [KeyCache.fresh] at h

/-- A call of `generateDESHash` by a thread in any valid cache state returns the
token `fingerprint` and leaves the cache valid. -/
theorem generateDESHash_eq_fingerprint (des : DESPrimitive) (cache : KeyCache)
    (hc : cache.Valid des) (password salt : String) :
    (generateDESHash des cache password salt).1 = fingerprint des password salt ∧
      (generateDESHash des cache password salt).2.Valid des := by
  unfold fingerprint generateDESHash KeyCache.Valid
  by_cases h : (!cache.initialized || cache.current_salt != salt) = true
  · simp [h, KeyCache.fresh]
  · simp only [h, KeyCache.fresh]
    simp only [Bool.or_eq_true, Bool.not_eq_true', bne_iff_ne, ne_eq, not_or,
      Bool.not_eq_false, Decidable.not_not] at h
    obtain ⟨hi, hs⟩ := h
    have hk := hc hi
    subst hs
    simp [hk]

theorem digitChar_inj : ∀ x, x < 16 → ∀ y, y < 16 → Nat.digitChar x = Nat.digitChar y → x = y := by
  decide

theorem isBlock_inputBlock (password : String) : IsBlock (inputBlock password) := by
  unfold IsBlock inputBlock strBytes
  constructor
  · have hl : password.toList.length = password.length := rfl
    simp only [List.length_append, List.length_take, List.length_map, List.length_replicate]
    rw [hl]
    generalize password.length = n
    omega
  · intro x hx
    simp only [List.mem_append, List.mem_replicate] at hx
    rcases hx with hx | ⟨_, rfl⟩
    · have hx1 := List.mem_of_mem_take hx
      obtain ⟨c, _, rfl⟩ := List.mem_map.mp hx1
      exact Nat.mod_lt _ (by decide)
    · decide

theorem getD_lt_of_isBlock (b : List Nat) (hb : IsBlock b) (i : Nat) : b.getD i 0 < 256 := by
  by_cases hi : i < b.length
  · rw [List.getD_eq_getElem b 0 hi]
    exact hb.2 _ (List.getElem_mem hi)
  · rw [List.getD_eq_default b 0 (by omega)]
    decide

theorem hexOutput_injective (b b' : List Nat) (hb : IsBlock b) (hb' : IsBlock b')
    (h : hexOutput b = hexOutput b') : b = b' := by
  have hget : ∀ i, i < 8 → b.getD i 0 = b'.getD i 0 := by
    unfold hexOutput at h
    have hr : List.range 8 = [0, 1, 2, 3, 4, 5, 6, 7] := by decide
    rw [hr] at h
    have h := congrArg String.data h
    simp only [List.flatMap_cons, List.flatMap_nil, List.cons_append,
      List.nil_append, List.append_nil, List.cons.injEq, and_true] at h
    have key : ∀ x y, x < 256 → y < 256 →
        Nat.digitChar (x % 256 / 16) = Nat.digitChar (y % 256 / 16) →
        Nat.digitChar (x % 256 % 16) = Nat.digitChar (y % 256 % 16) → x = y := by
      intro x y hx hy h1 h2
      have e1 := digitChar_inj _ (by omega) _ (by omega) h1
      have e2 := digitChar_inj _ (by omega) _ (by omega) h2
      omega
    obtain ⟨a0, a0', a1, a1', a2, a2', a3, a3', a4, a4', a5, a5', a6, a6', a7, a7'⟩ := h
    intro i hi
    have hl := getD_lt_of_isBlock b hb
    have hl' := getD_lt_of_isBlock b' hb'
    interval_cases i
    · exact key _ _ (hl 0) (hl' 0) a0 a0'
    · exact key _ _ (hl 1) (hl' 1) a1 a1'
    · exact key _ _ (hl 2) (hl' 2) a2 a2'
    · exact key _ _ (hl 3) (hl' 3) a3 a3'
    · exact key _ _ (hl 4) (hl' 4) a4 a4'
    · exact key _ _ (hl 5) (hl' 5) a5 a5'
    · exact key _ _ (hl 6) (hl' 6) a6 a6'
    · exact key _ _ (hl 7) (hl' 7) a7 a7'
  apply List.ext_getElem (by rw [hb.1, hb'.1])
  intro i h1 h2
  have := hget i (by rw [← hb.1]; exact h1)
  rwa [List.getD_eq_getElem b 0 h1, List.getD_eq_getElem b' 0 h2] at this

theorem fingerprint_eq (des : DESPrimitive) (password salt : String) :
    fingerprint des password salt =
      hexOutput (des.DES_ecb_encrypt (inputBlock password) (des.DES_set_key (saltKey salt))) := by
  simp [fingerprint, generateDESHash, KeyCache.fresh]

/-- Candidates with the same input block have the same fingerprint, whatever
the cipher. -/
theorem fingerprint_of_inputBlock_eq (des : DESPrimitive) (p q salt : String)
    (h : inputBlock p = inputBlock q) : fingerprint des p salt = fingerprint des q salt := by
  rw [fingerprint_eq, fingerprint_eq, h]

/-- Under a block cipher, candidates with the same fingerprint have the same
input block. -/
theorem inputBlock_eq_of_fingerprint (des : DESPrimitive) (p q salt : String)
    (hdes : des.IsBlockCipher salt)
    (h : fingerprint des p salt = fingerprint des q salt) : inputBlock p = inputBlock q := by
  rw [fingerprint_eq, fingerprint_eq] at h
  have hp := isBlock_inputBlock p
  have hq := isBlock_inputBlock q
  exact hdes.2 _ _ hp hq (hexOutput_injective _ _ (hdes.1 _ hp) (hdes.1 _ hq) h)

theorem zipWith_xor_cancel : ∀ (b k : List Nat), b.length ≤ k.length →
    List.zipWith (fun x y => x ^^^ y) (List.zipWith (fun x y => x ^^^ y) b k) k = b
  | [], _, _ => by simp
  | x :: b, [], h => by simp at h
  | x :: b, y :: k, h => by
    simp only [List.zipWith_cons_cons, List.cons.injEq]
    exact ⟨Nat.xor_cancel_right y x, zipWith_xor_cancel b k (by simpa using h)⟩

theorem xorCipher_isBlockCipher : xorCipher.IsBlockCipher "Leonardo8" := by
  have hk : xorCipher.DES_set_key (saltKey "Leonardo8") = [76, 101, 111, 110, 97, 114, 100, 111] := by
    decide
  unfold DESPrimitive.IsBlockCipher
  rw [hk]
  constructor
  · intro b hb
    constructor
    · simp [xorCipher, hb.1]
    · intro x hx
      simp only [xorCipher] at hx
      obtain ⟨i, hi, rfl⟩ := List.mem_iff_getElem.mp hx
      have hi2 : i < b.length ∧ i < 8 := by simpa [List.length_zipWith] using hi
      simp only [List.getElem_zipWith]
      have hi3 : i < ([76, 101, 111, 110, 97, 114, 100, 111] : List Nat).length := hi2.2
      have h1 : b[i] < 2 ^ 8 := hb.2 _ (List.getElem_mem hi2.1)
      have h2 : ([76, 101, 111, 110, 97, 114, 100, 111] : List Nat)[i] < 2 ^ 8 := by
        have hall : ∀ y ∈ ([76, 101, 111, 110, 97, 114, 100, 111] : List Nat), y < 2 ^ 8 := by
          decide
        exact hall _ (List.getElem_mem hi3)
      exact Nat.xor_lt_two_pow h1 h2
  · intro b b' hb hb' h
    simp only [xorCipher] at h
    have e1 := zipWith_xor_cancel b [76, 101, 111, 110, 97, 114, 100, 111] (by simp [hb.1])
    have e2 := zipWith_xor_cancel b' [76, 101, 111, 110, 97, 114, 100, 111] (by simp [hb'.1])
    rw [← e1, ← e2, h]

/-! ### Sequential search -/

theorem decryptPassword_of_no_match (des : DESPrimitive) (enc salt : String)
    (l : List String) (h : ∀ c ∈ l, fingerprint des c salt ≠ enc) :
    decryptPassword des enc salt l = "Password Not Found!" := by
  induction l with
  | nil => rfl
  | cons w rest ih =>
    have hw : fingerprint des w salt ≠ enc := h w (List.mem_cons_self _ _)
    have hr : ∀ c ∈ rest, fingerprint des c salt ≠ enc :=
      fun c hc => h c (List.mem_cons_of_mem _ hc)
    simp [decryptPassword, hw, ih hr]

/-- The search returns the candidate at index `i` when `i` is the lowest index
whose fingerprint matches. -/
theorem decryptPassword_of_first_match (des : DESPrimitive) (enc salt : String)
    (l : List String) (i : Nat) (c : String) (hi : l[i]? = some c)
    (hc : fingerprint des c salt = enc)
    (hlt : ∀ (j : Nat) (c' : String), j < i → l[j]? = some c' → fingerprint des c' salt ≠ enc) :
    decryptPassword des enc salt l = c := by
  induction l generalizing i with
  | nil => simp at hi
  | cons w rest ih =>
    cases i with
    | zero =>
      simp at hi
      subst hi
      simp [decryptPassword, hc]
    | succ k =>
      have hw : fingerprint des w salt ≠ enc := hlt 0 w (Nat.succ_pos k) (by simp)
      have hi1 : rest[k]? = some c := by simpa using hi
      have hlt1 : ∀ (j : Nat) (c' : String), j < k → rest[j]? = some c' → fingerprint des c' salt ≠ enc := by
        intro j c' hj hjc
        exact hlt (j + 1) c' (Nat.succ_lt_succ hj) (by simpa using hjc)
      simp [decryptPassword, hw, ih k hi1 hlt1]

/-- A list with a matching candidate has a lowest matching index. -/
theorem exists_first_match (des : DESPrimitive) (enc salt : String) (l : List String)
    (h : ∃ c ∈ l, fingerprint des c salt = enc) :
    ∃ (i : Nat) (c : String), l[i]? = some c ∧ fingerprint des c salt = enc ∧
      ∀ (j : Nat) (c' : String), j < i → l[j]? = some c' → fingerprint des c' salt ≠ enc := by
  induction l with
  | nil => simp at h
  | cons w rest ih =>
    by_cases hw : fingerprint des w salt = enc
    · exact ⟨0, w, by simp, hw, fun j c' hj _ => absurd hj (Nat.not_lt_zero j)⟩
    · have hr : ∃ c ∈ rest, fingerprint des c salt = enc := by
        obtain ⟨c, hc, hfc⟩ := h
        rcases List.mem_cons.mp hc with rfl | hc'
        · exact absurd hfc hw
        · exact ⟨c, hc', hfc⟩
      obtain ⟨i, c, hi, hc, hlt⟩ := ih hr
      refine ⟨i + 1, c, by simpa using hi, hc, ?_⟩
      intro j c' hj hjc
      cases j with
      | zero =>
        simp at hjc
        subst hjc
        exact hw
      | succ k => exact hlt k c' (Nat.lt_of_succ_lt_succ hj) (by simpa using hjc)

/-- C1. When at least one candidate of the list has the target fingerprint,
`decryptPassword` returns the candidate of lowest index whose fingerprint
matches: there is an index `i` holding a candidate `c` with the target
fingerprint, no candidate at a lower index matches, and the result is `c`. -/
theorem decryptPassword_returns_lowest_match (des : DESPrimitive) (encrypted_password salt : String)
    (password_list : List String)
    (h : ∃ c ∈ password_list, fingerprint des c salt = encrypted_password) :
    ∃ (i : Nat) (c : String), password_list[i]? = some c ∧ fingerprint des c salt = encrypted_password ∧
      (∀ (j : Nat) (c' : String), j < i → password_list[j]? = some c' →
        fingerprint des c' salt ≠ encrypted_password) ∧
      decryptPassword des encrypted_password salt password_list = c := by
  obtain ⟨i, c, hi, hc, hlt⟩ := exists_first_match des encrypted_password salt password_list h
  exact ⟨i, c, hi, hc, hlt,
    decryptPassword_of_first_match des encrypted_password salt password_list i c hi hc hlt⟩

/-- Witness of C1: a list with two matching candidates (both hash the block
"Target01"), searched for the fingerprint of "Target01". -/
theorem decryptPassword_returns_lowest_match_witness :
    ∃ (i : Nat) (c : String), (["aaaaaaa1", "Target01", "Target01X"] : List String)[i]? = some c ∧
      fingerprint xorCipher c "Leonardo8" = fingerprint xorCipher "Target01" "Leonardo8" ∧
      (∀ (j : Nat) (c' : String), j < i → (["aaaaaaa1", "Target01", "Target01X"] : List String)[j]? = some c' →
        fingerprint xorCipher c' "Leonardo8" ≠ fingerprint xorCipher "Target01" "Leonardo8") ∧
      decryptPassword xorCipher (fingerprint xorCipher "Target01" "Leonardo8") "Leonardo8"
        ["aaaaaaa1", "Target01", "Target01X"] = c :=
  decryptPassword_returns_lowest_match xorCipher (fingerprint xorCipher "Target01" "Leonardo8")
    "Leonardo8" ["aaaaaaa1", "Target01", "Target01X"] ⟨"Target01", by decide, rfl⟩

/-- C2. When no candidate of the list has the target fingerprint, and in
particular on the empty list, `decryptPassword` returns the string
"Password Not Found!"; the search is a total function, no error is raised. -/
theorem decryptPassword_not_found (des : DESPrimitive) (encrypted_password salt : String)
    (password_list : List String)
    (h : ∀ c ∈ password_list, fingerprint des c salt ≠ encrypted_password) :
    decryptPassword des encrypted_password salt password_list = "Password Not Found!" ∧
      decryptPassword des encrypted_password salt [] = "Password Not Found!" :=
  ⟨decryptPassword_of_no_match des encrypted_password salt password_list h, rfl⟩

/-- Witness of C2: "NOPE0000" searched in a list that holds no candidate with
its fingerprint. -/
theorem decryptPassword_not_found_witness :
    (∀ c ∈ ["aaaaaaa1", "Target01", "zzzzzzz9"],
        fingerprint xorCipher c "Leonardo8" ≠ fingerprint xorCipher "NOPE0000" "Leonardo8") ∧
      decryptPassword xorCipher (fingerprint xorCipher "NOPE0000" "Leonardo8") "Leonardo8"
        ["aaaaaaa1", "Target01", "zzzzzzz9"] = "Password Not Found!" ∧
      decryptPassword xorCipher (fingerprint xorCipher "NOPE0000" "Leonardo8") "Leonardo8" [] =
        "Password Not Found!" :=
  ⟨by decide, decryptPassword_not_found xorCipher (fingerprint xorCipher "NOPE0000" "Leonardo8")
    "Leonardo8" ["aaaaaaa1", "Target01", "zzzzzzz9"] (by decide)⟩

/-! ### Parallel search: invariants of the step relation -/

section ParallelProofs

variable (des : DESPrimitive) (encrypted_password salt : String)
  (password_list : List String) (num_threads chunk_size : Nat)

theorem ompInv_init :
    OmpInv des encrypted_password salt password_list num_threads ompInit where
  sentinel := fun _ => rfl
  winner := fun h => by simp [ompInit] at h
  chunk := fun t _ => by simp [ompInit]
  covered := fun i _ _ => Or.inr (Or.inl (Nat.zero_le i))

theorem ompInv_step (s s1 : OmpState) (t : Nat)
    (h : OmpInv des encrypted_password salt password_list num_threads s)
    (hs : ompStep des encrypted_password salt password_list num_threads chunk_size s t = some s1) :
    OmpInv des encrypted_password salt password_list num_threads s1 := by
  obtain ⟨h1, h2, h3, h4⟩ := h
  unfold ompStep at hs
  simp only [] at hs
  split_ifs at hs with ht hm hf hlt hf2 hfp hnext
  · -- critical region, found already set
    obtain rfl := Option.some.inj hs
    refine ⟨fun hf0 => by simp [hf] at hf0, fun _ => h2 hf, ?_, fun _ _ _ => Or.inl hf⟩
    intro u hu
    by_cases hut : u = t
    · subst hut
      obtain ⟨_, hsl, hw⟩ := h3 u hu
      have hcs := (hw hm).1
      simp [Function.update_apply]
      omega
    · simpa [Function.update_apply, hut] using h3 u hu
  · -- critical region, this thread wins
    obtain rfl := Option.some.inj hs
    obtain ⟨_, hsl, hw⟩ := h3 t ht
    obtain ⟨hcs, hmt⟩ := hw hm
    refine ⟨fun hf0 => by simp at hf0, fun _ => ⟨(s.workers t).cur, by omega, hmt, rfl⟩,
      ?_, fun _ _ _ => Or.inl rfl⟩
    intro u hu
    by_cases hut : u = t
    · subst hut
      simp [Function.update_apply]
      omega
    · simpa [Function.update_apply, hut] using h3 u hu
  · -- loop body skipped: found is set
    obtain rfl := Option.some.inj hs
    refine ⟨fun hf0 => by simp [hf2] at hf0, fun _ => h2 hf2, ?_, fun _ _ _ => Or.inl hf2⟩
    intro u hu
    by_cases hut : u = t
    · subst hut
      simp [Function.update_apply, hm]
      have := h3 u hu
      omega
    · simpa [Function.update_apply, hut] using h3 u hu
  · -- hash matches: wait for the critical region
    obtain rfl := Option.some.inj hs
    refine ⟨h1, h2, ?_, ?_⟩
    · intro u hu
      by_cases hut : u = t
      · subst hut
        simp [Function.update_apply]
        exact ⟨(h3 u hu).1, (h3 u hu).2.1, hlt, hfp⟩
      · simpa [Function.update_apply, hut] using h3 u hu
    · intro i hi him
      rcases h4 i hi him with hfd | hnx | ⟨u, hu, hr⟩
      · exact Or.inl hfd
      · exact Or.inr (Or.inl hnx)
      · refine Or.inr (Or.inr ⟨u, hu, ?_⟩)
        by_cases hut : u = t
        · subst hut
          simpa [Function.update_apply] using hr
        · simpa [Function.update_apply, hut] using hr
  · -- hash differs: next index
    obtain rfl := Option.some.inj hs
    refine ⟨h1, h2, ?_, ?_⟩
    · intro u hu
      by_cases hut : u = t
      · subst hut
        simp [Function.update_apply, hm]
        have := h3 u hu
        omega
      · simpa [Function.update_apply, hut] using h3 u hu
    · intro i hi him
      rcases h4 i hi him with hfd | hnx | ⟨u, hu, hr⟩
      · exact Or.inl hfd
      · exact Or.inr (Or.inl hnx)
      · refine Or.inr (Or.inr ⟨u, hu, ?_⟩)
        by_cases hut : u = t
        · subst hut
          have hne : i ≠ (s.workers u).cur := by
            intro hic
            rw [hic] at him
            exact hfp him
          simp [Function.update_apply]
          omega
        · simpa [Function.update_apply, hut] using hr
  · -- a new chunk
    obtain rfl := Option.some.inj hs
    refine ⟨h1, h2, ?_, ?_⟩
    · intro u hu
      by_cases hut : u = t
      · subst hut
        simp [Function.update_apply]
        omega
      · simpa [Function.update_apply, hut] using h3 u hu
    · intro i hi him
      rcases h4 i hi him with hfd | hnx | ⟨u, hu, hr⟩
      · exact Or.inl hfd
      · by_cases hic : s.next + chunk_size ≤ i
        · exact Or.inr (Or.inl hic)
        · refine Or.inr (Or.inr ⟨t, ht, ?_⟩)
          simp [Function.update_apply]
          omega
      · refine Or.inr (Or.inr ⟨u, hu, ?_⟩)
        by_cases hut : u = t
        · subst hut
          omega
        · simpa [Function.update_apply, hut] using hr

theorem ompInv_run (sched : List Nat) (s s1 : OmpState)
    (h : OmpInv des encrypted_password salt password_list num_threads s)
    (hs : ompRun des encrypted_password salt password_list num_threads chunk_size sched s = some s1) :
    OmpInv des encrypted_password salt password_list num_threads s1 := by
  induction sched generalizing s with
  | nil =>
    simp [ompRun] at hs
    subst hs
    exact h
  | cons t ts ih =>
    unfold ompRun at hs
    split at hs
    · simp at hs
    · next s2 hstep =>
      exact ih s2 (ompInv_step des encrypted_password salt password_list num_threads chunk_size
        s s2 t h hstep) hs

theorem ompStep_eq_none_iff (s : OmpState) (t : Nat) (ht : t < num_threads) :
    ompStep des encrypted_password salt password_list num_threads chunk_size s t = none ↔
      (s.workers t).matched = false ∧ (s.workers t).stop ≤ (s.workers t).cur ∧
        password_list.length ≤ s.next := by
  unfold ompStep
  simp only []
  split_ifs with hm hf hlt hf2 hfp hnext <;> simp_all

theorem ompFinished_iff (s : OmpState) :
    ompFinished des encrypted_password salt password_list num_threads chunk_size s = true ↔
      ∀ t, t < num_threads →
        ompStep des encrypted_password salt password_list num_threads chunk_size s t = none := by
  simp [ompFinished, List.all_eq_true, Option.isNone_iff_eq_none]

theorem sum_work_update (f : Nat → Worker) (t : Nat) (ht : t < num_threads) (w : Worker) :
    (Finset.sum (Finset.range num_threads) fun x => (Function.update f t w x).work) +
        (f t).work =
      (Finset.sum (Finset.range num_threads) fun x => (f x).work) + w.work := by
  have hmem : t ∈ Finset.range num_threads := Finset.mem_range.mpr ht
  have h1 := Finset.add_sum_erase (Finset.range num_threads) (fun x => (f x).work) hmem
  have h2 := Finset.add_sum_erase (Finset.range num_threads)
    (fun x => (Function.update f t w x).work) hmem
  have h3 : (Finset.sum ((Finset.range num_threads).erase t)
        fun x => (Function.update f t w x).work) =
      Finset.sum ((Finset.range num_threads).erase t) fun x => (f x).work := by
    apply Finset.sum_congr rfl
    intro x hx
    rw [Function.update_noteq (Finset.ne_of_mem_erase hx)]
  beta_reduce at h1 h2
  rw [Function.update_same, h3] at h2
  omega

/-- Every step of the region lowers the work left. -/
theorem ompWork_step (hc : 1 ≤ chunk_size) (s s1 : OmpState) (t : Nat)
    (h : OmpInv des encrypted_password salt password_list num_threads s)
    (hs : ompStep des encrypted_password salt password_list num_threads chunk_size s t = some s1) :
    ompWork password_list num_threads s1 < ompWork password_list num_threads s := by
  unfold ompStep at hs
  simp only [] at hs
  split_ifs at hs with ht hm hf hlt hf2 hfp hnext
  all_goals obtain rfl := Option.some.inj hs
  all_goals obtain ⟨hle, hsl, hw⟩ := h.chunk t ht
  all_goals simp only [ompWork]
  · have hcs := (hw hm).1
    have hsum := sum_work_update num_threads s.workers t ht
      { cur := (s.workers t).cur + 1, stop := (s.workers t).stop, matched := false }
    simp only [Worker.work, hm] at hsum ⊢
    simp at hsum
    omega
  · have hcs := (hw hm).1
    have hsum := sum_work_update num_threads s.workers t ht
      { cur := (s.workers t).cur + 1, stop := (s.workers t).stop, matched := false }
    simp only [Worker.work, hm] at hsum ⊢
    simp at hsum
    omega
  · have hsum := sum_work_update num_threads s.workers t ht
      { cur := (s.workers t).cur + 1, stop := (s.workers t).stop,
        matched := (s.workers t).matched }
    simp only [Worker.work, hm] at hsum ⊢
    simp at hsum
    omega
  · have hsum := sum_work_update num_threads s.workers t ht
      { cur := (s.workers t).cur, stop := (s.workers t).stop, matched := true }
    simp only [Worker.work, hm] at hsum ⊢
    simp at hsum
    omega
  · have hsum := sum_work_update num_threads s.workers t ht
      { cur := (s.workers t).cur + 1, stop := (s.workers t).stop,
        matched := (s.workers t).matched }
    simp only [Worker.work, hm] at hsum ⊢
    simp at hsum
    omega
  · have hsum := sum_work_update num_threads s.workers t ht
      { cur := s.next, stop := min (s.next + chunk_size) password_list.length,
        matched := false }
    simp only [Worker.work, hm] at hsum ⊢
    simp at hsum
    omega

/-- An execution is no longer than the work left at its start. -/
theorem ompRun_length (hc : 1 ≤ chunk_size) (sched : List Nat) (s s1 : OmpState)
    (h : OmpInv des encrypted_password salt password_list num_threads s)
    (hs : ompRun des encrypted_password salt password_list num_threads chunk_size sched s =
      some s1) :
    sched.length + ompWork password_list num_threads s1 ≤
      ompWork password_list num_threads s := by
  induction sched generalizing s with
  | nil =>
    simp [ompRun] at hs
    subst hs
    simp
  | cons t ts ih =>
    unfold ompRun at hs
    split at hs
    · simp at hs
    · next s2 hstep =>
      have h2 := ompInv_step des encrypted_password salt password_list num_threads chunk_size
        s s2 t h hstep
      have hlt := ompWork_step des encrypted_password salt password_list num_threads chunk_size
        hc s s2 t h hstep
      have := ih s2 h2 hs
      simp only [List.length_cons]
      omega

theorem ompRun_append (a b : List Nat) (s : OmpState) :
    ompRun des encrypted_password salt password_list num_threads chunk_size (a ++ b) s =
      (ompRun des encrypted_password salt password_list num_threads chunk_size a s).bind
        (ompRun des encrypted_password salt password_list num_threads chunk_size b) := by
  induction a generalizing s with
  | nil => simp [ompRun]
  | cons t ts ih =>
    simp only [List.cons_append, ompRun]
    cases ompStep des encrypted_password salt password_list num_threads chunk_size s t with
    | none => simp
    | some s2 => simpa using ih s2

/-- From every state of the region the threads can run the loop to its end. -/
theorem ompRun_completes (hc : 1 ≤ chunk_size) (m : Nat) :
    ∀ s : OmpState, OmpInv des encrypted_password salt password_list num_threads s →
      ompWork password_list num_threads s ≤ m →
      ∃ sched s1,
        ompRun des encrypted_password salt password_list num_threads chunk_size sched s =
          some s1 ∧
        ompFinished des encrypted_password salt password_list num_threads chunk_size s1 = true := by
  induction m with
  | zero =>
    intro s hinv hwork
    by_cases hfin : ompFinished des encrypted_password salt password_list num_threads
        chunk_size s = true
    · exact ⟨[], s, rfl, hfin⟩
    · rw [ompFinished_iff] at hfin
      push_neg at hfin
      obtain ⟨t, _, hne⟩ := hfin
      obtain ⟨s2, hstep⟩ := Option.ne_none_iff_exists'.mp hne
      have := ompWork_step des encrypted_password salt password_list num_threads chunk_size
        hc s s2 t hinv hstep
      omega
  | succ m ih =>
    intro s hinv hwork
    by_cases hfin : ompFinished des encrypted_password salt password_list num_threads
        chunk_size s = true
    · exact ⟨[], s, rfl, hfin⟩
    · rw [ompFinished_iff] at hfin
      push_neg at hfin
      obtain ⟨t, _, hne⟩ := hfin
      obtain ⟨s2, hstep⟩ := Option.ne_none_iff_exists'.mp hne
      have hlt := ompWork_step des encrypted_password salt password_list num_threads chunk_size
        hc s s2 t hinv hstep
      have hinv2 := ompInv_step des encrypted_password salt password_list num_threads
        chunk_size s s2 t hinv hstep
      obtain ⟨sched, s1, hrun, hdone⟩ := ih s2 hinv2 (by omega)
      exact ⟨t :: sched, s1, by simp [ompRun, hstep, hrun], hdone⟩

/-- For every chunk size of at least 1: an execution of `openMPDecryption` takes
at most `4 * size + num_threads` steps, and every execution, however its steps
were interleaved so far, can be run on to the end of the region, where the
function returns. -/
theorem openMPDecryption_terminates (hc : 1 ≤ chunk_size) (sched : List Nat) (s : OmpState)
    (hs : ompRun des encrypted_password salt password_list num_threads chunk_size sched
      ompInit = some s) :
    sched.length ≤ 4 * password_list.length + num_threads ∧
      ∃ rest r, openMPDecryption des encrypted_password salt password_list num_threads
        chunk_size (sched ++ rest) = some r := by
  have hinit := ompInv_init des encrypted_password salt password_list num_threads
  have hinv := ompInv_run des encrypted_password salt password_list num_threads chunk_size
    sched ompInit s hinit hs
  constructor
  · have hlen := ompRun_length des encrypted_password salt password_list num_threads chunk_size
      hc sched ompInit s hinit hs
    have h0 : ompWork password_list num_threads ompInit =
        4 * password_list.length + num_threads := by
      simp [ompWork, ompInit, Worker.work]
    omega
  · obtain ⟨rest, s1, hrun, hfin⟩ := ompRun_completes des encrypted_password salt password_list
      num_threads chunk_size hc (ompWork password_list num_threads s) s hinv (le_refl _)
    refine ⟨rest, s1.decrypted_password, ?_⟩
    simp [openMPDecryption, ompRun_append, hs, hrun, hfin]

/-- For every chunk size of at least 1, `openMPDecryption` has a complete
execution, so it returns a value. -/
theorem openMPDecryption_returns (hc : 1 ≤ chunk_size) :
    ∃ sched r, openMPDecryption des encrypted_password salt password_list num_threads
      chunk_size sched = some r := by
  obtain ⟨_, rest, r, h⟩ := openMPDecryption_terminates des encrypted_password salt
    password_list num_threads chunk_size hc [] ompInit rfl
  exact ⟨[] ++ rest, r, h⟩

/-- What a complete execution leaves: the state at the end of the region. -/
theorem openMPDecryption_eq_some (sched : List Nat) (r : String)
    (h : openMPDecryption des encrypted_password salt password_list num_threads chunk_size
      sched = some r) :
    ∃ s, ompRun des encrypted_password salt password_list num_threads chunk_size sched
        ompInit = some s ∧
      ompFinished des encrypted_password salt password_list num_threads chunk_size s = true ∧
      s.decrypted_password = r := by
  unfold openMPDecryption at h
  split at h
  · simp at h
  · next s hrun =>
    split_ifs at h with hfin
    exact ⟨s, hrun, hfin, Option.some.inj h⟩

theorem getD_of_getElem? (l : List String) (i : Nat) (c : String) (h : l[i]? = some c) :
    l.getD i "" = c := by
  simp [List.getD_eq_getElem?_getD, h]

theorem getD_mem (l : List String) (i : Nat) (h : i < l.length) : l.getD i "" ∈ l := by
  rw [List.getD_eq_getElem l "" h]
  exact List.getElem_mem h

/-- A candidate of the list with the target fingerprint sits at a matching index. -/
theorem exists_isMatch_of_mem (c : String) (hc : c ∈ password_list)
    (hfp : fingerprint des c salt = encrypted_password) :
    ∃ i, i < password_list.length ∧ IsMatch des encrypted_password salt password_list i := by
  obtain ⟨i, hi, hic⟩ := List.mem_iff_getElem.mp hc
  refine ⟨i, hi, ?_⟩
  unfold IsMatch
  rw [List.getD_eq_getElem password_list "" hi, hic]
  exact hfp

/-- At the end of the region no thread holds work and every chunk is handed out. -/
theorem ompFinished_spec (hn : 1 ≤ num_threads) (s : OmpState)
    (hfin : ompFinished des encrypted_password salt password_list num_threads chunk_size s = true) :
    password_list.length ≤ s.next ∧
      ∀ t, t < num_threads →
        (s.workers t).matched = false ∧ (s.workers t).stop ≤ (s.workers t).cur := by
  rw [ompFinished_iff] at hfin
  have h0 := (ompStep_eq_none_iff des encrypted_password salt password_list num_threads
    chunk_size s 0 (by omega)).mp (hfin 0 (by omega))
  refine ⟨h0.2.2, fun t ht => ?_⟩
  have h := (ompStep_eq_none_iff des encrypted_password salt password_list num_threads
    chunk_size s t ht).mp (hfin t ht)
  exact ⟨h.1, h.2.1⟩

/-- Every complete execution returns the sentinel when nothing matches, and a
matching candidate of the list when something does. -/
theorem openMPDecryption_sound (hn : 1 ≤ num_threads) (sched : List Nat) (r : String)
    (h : openMPDecryption des encrypted_password salt password_list num_threads chunk_size
      sched = some r) :
    ((∀ c ∈ password_list, fingerprint des c salt ≠ encrypted_password) →
        r = "Password Not Found!") ∧
      ((∃ c ∈ password_list, fingerprint des c salt = encrypted_password) →
        r ∈ password_list ∧ fingerprint des r salt = encrypted_password) := by
  obtain ⟨s, hrun, hfin, hres⟩ := openMPDecryption_eq_some des encrypted_password salt
    password_list num_threads chunk_size sched r h
  have hinv := ompInv_run des encrypted_password salt password_list num_threads chunk_size
    sched ompInit s (ompInv_init des encrypted_password salt password_list num_threads) hrun
  obtain ⟨hnext, hidle⟩ := ompFinished_spec des encrypted_password salt password_list
    num_threads chunk_size hn s hfin
  subst hres
  constructor
  · intro hno
    cases hf : s.found with
    | false => exact hinv.sentinel hf
    | true =>
      obtain ⟨i, hi, him, _⟩ := hinv.winner hf
      exact absurd him (hno _ (getD_mem password_list i hi))
  · rintro ⟨c, hc, hfp⟩
    obtain ⟨i, hi, him⟩ := exists_isMatch_of_mem des encrypted_password salt password_list c hc hfp
    have hf : s.found = true := by
      rcases hinv.covered i hi him with hf | hnx | ⟨t, ht, hlo, hhi⟩
      · exact hf
      · omega
      · have := (hidle t ht).2
        omega
    obtain ⟨j, hj, hjm, hjr⟩ := hinv.winner hf
    rw [hjr]
    exact ⟨getD_mem password_list j hj, hjm⟩

/-- Every complete execution on a list without a matching candidate returns the
sentinel, whatever the team. -/
theorem openMPDecryption_of_no_match (sched : List Nat) (r : String)
    (hno : ∀ c ∈ password_list, fingerprint des c salt ≠ encrypted_password)
    (h : openMPDecryption des encrypted_password salt password_list num_threads chunk_size
      sched = some r) :
    r = "Password Not Found!" := by
  obtain ⟨s, hrun, _, hres⟩ := openMPDecryption_eq_some des encrypted_password salt
    password_list num_threads chunk_size sched r h
  have hinv := ompInv_run des encrypted_password salt password_list num_threads chunk_size
    sched ompInit s (ompInv_init des encrypted_password salt password_list num_threads) hrun
  subst hres
  cases hf : s.found with
  | false => exact hinv.sentinel hf
  | true =>
    obtain ⟨i, hi, him, _⟩ := hinv.winner hf
    exact absurd him (hno _ (getD_mem password_list i hi))

/-! ### Parallel search with one thread -/

theorem oneThreadInv_init :
    OneThreadInv des encrypted_password salt password_list ompInit where
  sentinel := fun _ => rfl
  below := fun _ j hj => by simp [ompInit] at hj
  first := fun h => by simp [ompInit] at h
  chunk := by simp [ompInit]
  waiting := fun h => by simp [ompInit] at h

theorem oneThreadInv_step (s s1 : OmpState) (t : Nat)
    (h : OneThreadInv des encrypted_password salt password_list s)
    (hs : ompStep des encrypted_password salt password_list 1 chunk_size s t = some s1) :
    OneThreadInv des encrypted_password salt password_list s1 := by
  obtain ⟨h1, h2, h3, ⟨h4, h5⟩, h6⟩ := h
  unfold ompStep at hs
  simp only [] at hs
  split_ifs at hs with ht hm hf hlt hf2 hfp hnext
  all_goals obtain rfl : t = 0 := by omega
  all_goals obtain rfl := Option.some.inj hs
  · -- critical region, found already set
    have hcs := (h6 hm).1
    refine ⟨fun hf0 => by simp [hf] at hf0, fun hf0 => by simp [hf] at hf0, fun _ => h3 hf,
      ?_, fun hm0 => by simp at hm0⟩
    simp
    omega
  · -- critical region, this thread wins
    obtain ⟨hcs, hmt⟩ := h6 hm
    have hfalse : s.found = false := by simpa using hf
    refine ⟨fun hf0 => by simp at hf0, fun hf0 => by simp at hf0,
      fun _ => ⟨(s.workers 0).cur, by omega, hmt, h2 hfalse, rfl⟩, ?_, fun hm0 => by simp at hm0⟩
    simp
    omega
  · -- loop body skipped: found is set
    refine ⟨fun hf0 => by simp [hf2] at hf0, fun hf0 => by simp [hf2] at hf0, fun _ => h3 hf2,
      ?_, fun hm0 => by simp [hm] at hm0⟩
    simp
    omega
  · -- hash matches: wait for the critical region
    refine ⟨h1, ?_, h3, ?_, fun _ => ?_⟩
    · simpa using h2
    · simpa using ⟨h4, h5⟩
    · simpa using ⟨hlt, hfp⟩
  · -- hash differs: next index
    refine ⟨h1, ?_, h3, ?_, fun hm0 => by simp [hm] at hm0⟩
    · intro hf0 j hj
      simp at hj
      rcases Nat.lt_or_ge j (s.workers 0).cur with hlo | hge
      · exact h2 hf0 j hlo
      · have hj0 : j = (s.workers 0).cur := by omega
        rw [hj0]
        exact hfp
    · simp
      omega
  · -- a new chunk
    refine ⟨h1, ?_, h3, ?_, fun hm0 => by simp at hm0⟩
    · intro hf0 j hj
      simp at hj
      exact h2 hf0 j (by omega)
    · simp
      omega

theorem oneThreadInv_run (sched : List Nat) (s s1 : OmpState)
    (h : OneThreadInv des encrypted_password salt password_list s)
    (hs : ompRun des encrypted_password salt password_list 1 chunk_size sched s = some s1) :
    OneThreadInv des encrypted_password salt password_list s1 := by
  induction sched generalizing s with
  | nil =>
    simp [ompRun] at hs
    subst hs
    exact h
  | cons t ts ih =>
    unfold ompRun at hs
    split at hs
    · simp at hs
    · next s2 hstep =>
      exact ih s2 (oneThreadInv_step des encrypted_password salt password_list chunk_size
        s s2 t h hstep) hs

/-- With one thread every complete execution returns what the sequential search
returns. -/
theorem openMPDecryption_one_thread (sched : List Nat) (r : String)
    (h : openMPDecryption des encrypted_password salt password_list 1 chunk_size sched = some r) :
    r = decryptPassword des encrypted_password salt password_list := by
  obtain ⟨s, hrun, hfin, hres⟩ := openMPDecryption_eq_some des encrypted_password salt
    password_list 1 chunk_size sched r h
  have hinv := oneThreadInv_run des encrypted_password salt password_list chunk_size
    sched ompInit s (oneThreadInv_init des encrypted_password salt password_list) hrun
  obtain ⟨hnext, hidle⟩ := ompFinished_spec des encrypted_password salt password_list
    1 chunk_size (le_refl 1) s hfin
  subst hres
  cases hf : s.found with
  | false =>
    rw [hinv.sentinel hf]
    symm
    apply decryptPassword_of_no_match
    intro c hc hfp
    obtain ⟨i, hi, him⟩ := exists_isMatch_of_mem des encrypted_password salt password_list c hc hfp
    have h0 := (hidle 0 (by omega)).2
    have hch := hinv.chunk
    exact hinv.below hf i (by omega) him
  | true =>
    obtain ⟨i, hi, him, hlow, hr⟩ := hinv.first hf
    rw [hr]
    symm
    apply decryptPassword_of_first_match des encrypted_password salt password_list i
    · rw [List.getElem?_eq_getElem hi, List.getD_eq_getElem password_list "" hi]
    · exact him
    · intro j c' hj hjc hfp
      apply hlow j hj
      unfold IsMatch
      rw [getD_of_getElem? password_list j c' hjc]
      exact hfp

/-! ### The shared flag and the result slot -/

theorem ompStep_slot (s s1 : OmpState) (t : Nat)
    (hs : ompStep des encrypted_password salt password_list num_threads chunk_size s t = some s1) :
    (s.found = true → s1.found = true ∧ s1.decrypted_password = s.decrypted_password) ∧
      (ompWrites num_threads s t = true → s.found = false ∧ s1.found = true) ∧
      (ompWrites num_threads s t = false →
        s1.decrypted_password = s.decrypted_password ∧ s1.found = s.found) := by
  unfold ompStep at hs
  simp only [] at hs
  split_ifs at hs with ht hm hf hlt hf2 hfp hnext
  all_goals obtain rfl := Option.some.inj hs
  all_goals simp_all [ompWrites]

theorem ompRun_slot (sched : List Nat) (s s1 : OmpState)
    (hrun : ompRun des encrypted_password salt password_list num_threads chunk_size sched s =
      some s1) :
    (s.found = true → s1.found = true ∧ s1.decrypted_password = s.decrypted_password) ∧
      ompWriteCount des encrypted_password salt password_list num_threads chunk_size sched s ≤
        (if s.found then 0 else 1) ∧
      (ompWriteCount des encrypted_password salt password_list num_threads chunk_size sched s = 0 →
        s1.decrypted_password = s.decrypted_password ∧ s1.found = s.found) := by
  induction sched generalizing s with
  | nil =>
    simp [ompRun] at hrun
    subst hrun
    simp [ompWriteCount]
  | cons t ts ih =>
    unfold ompRun at hrun
    split at hrun
    · simp at hrun
    · next s2 hstep =>
      obtain ⟨hmono, hcount, hzero⟩ := ih s2 hrun
      obtain ⟨hkeep, hwr, hnowr⟩ := ompStep_slot des encrypted_password salt password_list
        num_threads chunk_size s s2 t hstep
      simp only [ompWriteCount, hstep]
      refine ⟨?_, ?_, ?_⟩
      · intro hf
        obtain ⟨hf2, hd2⟩ := hkeep hf
        obtain ⟨hf1, hd1⟩ := hmono hf2
        exact ⟨hf1, hd1.trans hd2⟩
      · cases hw : ompWrites num_threads s t with
        | true =>
          obtain ⟨hsf, hs2f⟩ := hwr hw
          simp [hsf, hs2f] at hcount ⊢
          exact hcount
        | false =>
          obtain ⟨_, hsame⟩ := hnowr hw
          rw [hsame] at hcount
          simpa using hcount
      · intro hsum
        cases hw : ompWrites num_threads s t with
        | true => simp [hw] at hsum
        | false =>
          simp [hw] at hsum
          obtain ⟨hd2, hf2⟩ := hnowr hw
          obtain ⟨hd1, hf1⟩ := hzero hsum
          exact ⟨hd1.trans hd2, hf1.trans hf2⟩

end ParallelProofs

/-! ### The claims on the parallel search -/

/-- C3. With `num_threads = 1` and any `chunk_size >= 1`, `openMPDecryption`
returns exactly the value `decryptPassword` returns on the same list, salt and
target fingerprint, wherever the target sits in the list: every execution of
the region is finite and can be run to its end, and every complete execution
returns that value. -/
theorem openMPDecryption_one_thread_eq_decryptPassword (des : DESPrimitive)
    (encrypted_password salt : String) (password_list : List String) (chunk_size : Nat)
    (hc : 1 ≤ chunk_size) :
    (∀ sched s, ompRun des encrypted_password salt password_list 1 chunk_size sched ompInit =
        some s → sched.length ≤ 4 * password_list.length + 1 ∧
        ∃ rest, openMPDecryption des encrypted_password salt password_list 1 chunk_size
          (sched ++ rest) = some (decryptPassword des encrypted_password salt password_list)) ∧
      ∀ sched r, openMPDecryption des encrypted_password salt password_list 1 chunk_size sched =
        some r → r = decryptPassword des encrypted_password salt password_list := by
  refine ⟨?_, openMPDecryption_one_thread des encrypted_password salt password_list chunk_size⟩
  intro sched s hs
  obtain ⟨hlen, rest, r, h⟩ := openMPDecryption_terminates des encrypted_password salt
    password_list 1 chunk_size hc sched s hs
  refine ⟨hlen, rest, ?_⟩
  rw [h, openMPDecryption_one_thread des encrypted_password salt password_list chunk_size
    (sched ++ rest) r h]

/-- Witness of C3: the target at the last index of a list of three, chunks of two. -/
theorem openMPDecryption_one_thread_eq_decryptPassword_witness :
    1 ≤ 2 ∧
    (∀ sched s, ompRun xorCipher (fingerprint xorCipher "Target01" "Leonardo8") "Leonardo8"
        ["aaaaaaa1", "zzzzzzz9", "Target01"] 1 2 sched ompInit = some s →
        sched.length ≤ 4 * ["aaaaaaa1", "zzzzzzz9", "Target01"].length + 1 ∧
        ∃ rest, openMPDecryption xorCipher (fingerprint xorCipher "Target01" "Leonardo8")
          "Leonardo8" ["aaaaaaa1", "zzzzzzz9", "Target01"] 1 2 (sched ++ rest) =
          some (decryptPassword xorCipher (fingerprint xorCipher "Target01" "Leonardo8")
            "Leonardo8" ["aaaaaaa1", "zzzzzzz9", "Target01"])) ∧
      ∀ sched r, openMPDecryption xorCipher (fingerprint xorCipher "Target01" "Leonardo8")
        "Leonardo8" ["aaaaaaa1", "zzzzzzz9", "Target01"] 1 2 sched = some r →
        r = decryptPassword xorCipher (fingerprint xorCipher "Target01" "Leonardo8")
          "Leonardo8" ["aaaaaaa1", "zzzzzzz9", "Target01"] :=
  ⟨by decide, openMPDecryption_one_thread_eq_decryptPassword xorCipher
    (fingerprint xorCipher "Target01" "Leonardo8") "Leonardo8"
    ["aaaaaaa1", "zzzzzzz9", "Target01"] 2 (by decide)⟩

/-- Counterexample to C4: the list holds the target "Target01" after the
candidate "Target01X", which has the same first 8 bytes and so the same
fingerprint under any cipher. The sequential search returns "Target01X"; with 2
threads and chunks of 1, the interleaving in which thread 1 runs index 1 before
thread 0 runs index 0 returns "Target01". -/
theorem openMPDecryption_differs_from_decryptPassword :
    "Target01" ∈ ["Target01X", "Target01"] ∧
    (∀ des : DESPrimitive,
      decryptPassword des (fingerprint des "Target01" "Leonardo8") "Leonardo8"
        ["Target01X", "Target01"] = "Target01X") ∧
    (∀ des : DESPrimitive,
      openMPDecryption des (fingerprint des "Target01" "Leonardo8") "Leonardo8"
        ["Target01X", "Target01"] 2 1 [0, 1, 1, 1, 0] = some "Target01") := by
  have h : ∀ des : DESPrimitive,
      fingerprint des "Target01X" "Leonardo8" = fingerprint des "Target01" "Leonardo8" :=
    fun des => fingerprint_of_inputBlock_eq des _ _ _ (by decide)
  refine ⟨by decide, fun des => ?_, fun des => ?_⟩
  · simp [decryptPassword, h des]
  · simp [openMPDecryption, ompRun, ompStep, ompInit, ompFinished, Function.update,
      List.range, List.range.loop, h des]

/-- C4, amended. For every candidate list that contains the target and in which
every candidate with the fingerprint of the target is the target string itself,
every worker count in {1, 2, 4, 8} and every `chunk_size >= 1`: `decryptPassword`
returns the target, every execution of `openMPDecryption` is finite and can be
run to the end of the region, and every complete execution (every interleaving)
returns the target. -/
theorem searches_agree_of_unique_match (des : DESPrimitive) (salt target : String)
    (password_list : List String) (num_threads chunk_size : Nat)
    (hmem : target ∈ password_list)
    (huniq : ∀ c ∈ password_list,
      fingerprint des c salt = fingerprint des target salt → c = target)
    (hn : num_threads = 1 ∨ num_threads = 2 ∨ num_threads = 4 ∨ num_threads = 8)
    (hc : 1 ≤ chunk_size) :
    decryptPassword des (fingerprint des target salt) salt password_list = target ∧
      (∀ sched s, ompRun des (fingerprint des target salt) salt password_list num_threads
        chunk_size sched ompInit = some s →
        sched.length ≤ 4 * password_list.length + num_threads ∧
        ∃ rest, openMPDecryption des (fingerprint des target salt) salt password_list
          num_threads chunk_size (sched ++ rest) = some target) ∧
      ∀ sched r, openMPDecryption des (fingerprint des target salt) salt password_list
        num_threads chunk_size sched = some r → r = target := by
  have hn1 : 1 ≤ num_threads := by omega
  have hex : ∃ c ∈ password_list, fingerprint des c salt = fingerprint des target salt :=
    ⟨target, hmem, rfl⟩
  have hall : ∀ sched r, openMPDecryption des (fingerprint des target salt) salt password_list
      num_threads chunk_size sched = some r → r = target := by
    intro sched r h
    obtain ⟨hr, hfp⟩ := (openMPDecryption_sound des (fingerprint des target salt) salt
      password_list num_threads chunk_size hn1 sched r h).2 hex
    exact huniq r hr hfp
  refine ⟨?_, ?_, hall⟩
  · obtain ⟨i, c, hi, hfc, hlt⟩ := exists_first_match des (fingerprint des target salt) salt
      password_list hex
    rw [decryptPassword_of_first_match des (fingerprint des target salt) salt password_list
      i c hi hfc hlt]
    exact huniq c (List.mem_iff_getElem?.mpr ⟨i, hi⟩) hfc
  · intro sched s hs
    obtain ⟨hlen, rest, r, h⟩ := openMPDecryption_terminates des (fingerprint des target salt)
      salt password_list num_threads chunk_size hc sched s hs
    exact ⟨hlen, rest, by rw [h, hall (sched ++ rest) r h]⟩

/-- Witness of C4 amended: the scenario of the specification, the target
"Target01" in the list of three candidates, 2 workers, chunks of 1. -/
theorem searches_agree_of_unique_match_witness :
    decryptPassword xorCipher (fingerprint xorCipher "Target01" "Leonardo8") "Leonardo8"
        ["aaaaaaa1", "Target01", "zzzzzzz9"] = "Target01" ∧
      (∀ sched s, ompRun xorCipher (fingerprint xorCipher "Target01" "Leonardo8") "Leonardo8"
        ["aaaaaaa1", "Target01", "zzzzzzz9"] 2 1 sched ompInit = some s →
        sched.length ≤ 4 * ["aaaaaaa1", "Target01", "zzzzzzz9"].length + 2 ∧
        ∃ rest, openMPDecryption xorCipher (fingerprint xorCipher "Target01" "Leonardo8")
          "Leonardo8" ["aaaaaaa1", "Target01", "zzzzzzz9"] 2 1 (sched ++ rest) =
          some "Target01") ∧
      ∀ sched r, openMPDecryption xorCipher (fingerprint xorCipher "Target01" "Leonardo8")
        "Leonardo8" ["aaaaaaa1", "Target01", "zzzzzzz9"] 2 1 sched = some r → r = "Target01" :=
  searches_agree_of_unique_match xorCipher "Leonardo8" "Target01"
    ["aaaaaaa1", "Target01", "zzzzzzz9"] 2 1 (by decide) (by decide) (by decide) (by decide)

/-- C5. For every worker count and chunk size of at least 1 and every candidate
list: every execution of `openMPDecryption` is finite and can be run to the end
of the region, and every complete execution (every interleaving of the workers)
returns "Password Not Found!" when no candidate has the target fingerprint, and
otherwise returns a candidate of the list that has the target fingerprint. -/
theorem openMPDecryption_result (des : DESPrimitive) (encrypted_password salt : String)
    (password_list : List String) (num_threads chunk_size : Nat)
    (hn : 1 ≤ num_threads) (hc : 1 ≤ chunk_size) :
    (∀ sched s, ompRun des encrypted_password salt password_list num_threads chunk_size sched
        ompInit = some s → sched.length ≤ 4 * password_list.length + num_threads ∧
        ∃ rest r, openMPDecryption des encrypted_password salt password_list num_threads
          chunk_size (sched ++ rest) = some r) ∧
      ∀ sched r, openMPDecryption des encrypted_password salt password_list num_threads
        chunk_size sched = some r →
        ((∀ c ∈ password_list, fingerprint des c salt ≠ encrypted_password) →
          r = "Password Not Found!") ∧
        ((∃ c ∈ password_list, fingerprint des c salt = encrypted_password) →
          r ∈ password_list ∧ fingerprint des r salt = encrypted_password) :=
  ⟨openMPDecryption_terminates des encrypted_password salt password_list num_threads
      chunk_size hc,
    openMPDecryption_sound des encrypted_password salt password_list num_threads chunk_size hn⟩

/-- Witness of C5: three workers on a list with two matching candidates. -/
theorem openMPDecryption_result_witness :
    (1 ≤ 3 ∧ 1 ≤ 2) ∧
    (∀ sched s, ompRun xorCipher (fingerprint xorCipher "Target01" "Leonardo8") "Leonardo8"
        ["Target01X", "aaaaaaa1", "Target01", "zzzzzzz9"] 3 2 sched ompInit = some s →
        sched.length ≤ 4 * ["Target01X", "aaaaaaa1", "Target01", "zzzzzzz9"].length + 3 ∧
        ∃ rest r, openMPDecryption xorCipher (fingerprint xorCipher "Target01" "Leonardo8")
          "Leonardo8" ["Target01X", "aaaaaaa1", "Target01", "zzzzzzz9"] 3 2 (sched ++ rest) =
          some r) ∧
      ∀ sched r, openMPDecryption xorCipher (fingerprint xorCipher "Target01" "Leonardo8")
        "Leonardo8" ["Target01X", "aaaaaaa1", "Target01", "zzzzzzz9"] 3 2 sched = some r →
        ((∀ c ∈ ["Target01X", "aaaaaaa1", "Target01", "zzzzzzz9"],
            fingerprint xorCipher c "Leonardo8" ≠ fingerprint xorCipher "Target01" "Leonardo8") →
          r = "Password Not Found!") ∧
        ((∃ c ∈ ["Target01X", "aaaaaaa1", "Target01", "zzzzzzz9"],
            fingerprint xorCipher c "Leonardo8" = fingerprint xorCipher "Target01" "Leonardo8") →
          r ∈ ["Target01X", "aaaaaaa1", "Target01", "zzzzzzz9"] ∧
            fingerprint xorCipher r "Leonardo8" =
              fingerprint xorCipher "Target01" "Leonardo8") :=
  ⟨⟨by decide, by decide⟩, openMPDecryption_result xorCipher
    (fingerprint xorCipher "Target01" "Leonardo8") "Leonardo8"
    ["Target01X", "aaaaaaa1", "Target01", "zzzzzzz9"] 3 2 (by decide) (by decide)⟩

/-- Counterexample to C6: the list ["Target01X"] does not contain the target
"Target01", yet both searches for the fingerprint of "Target01" return
"Target01X" and not the sentinel, under any cipher: `generateDESHash` hashes
the first 8 bytes of a candidate only. -/
theorem not_found_fails_on_longer_candidate :
    "Target01" ∉ ["Target01X"] ∧ "Target01X" ≠ "Password Not Found!" ∧
    (∀ des : DESPrimitive,
      decryptPassword des (fingerprint des "Target01" "Leonardo8") "Leonardo8" ["Target01X"] =
        "Target01X") ∧
    (∀ des : DESPrimitive,
      openMPDecryption des (fingerprint des "Target01" "Leonardo8") "Leonardo8" ["Target01X"]
        1 1 [0, 0, 0] = some "Target01X") := by
  have h : ∀ des : DESPrimitive,
      fingerprint des "Target01X" "Leonardo8" = fingerprint des "Target01" "Leonardo8" :=
    fun des => fingerprint_of_inputBlock_eq des _ _ _ (by decide)
  refine ⟨by decide, by decide, fun des => ?_, fun des => ?_⟩
  · simp [decryptPassword, h des]
  · simp [openMPDecryption, ompRun, ompStep, ompInit, ompFinished, Function.update,
      List.range, List.range.loop, h des]

/-- C6, amended. When DES under the key of the salt is a block cipher (maps
blocks to blocks, one-to-one), for every candidate list in which no candidate
has the 8-byte input block of the target (its first 8 bytes, zero-padded), and
all worker counts and chunk sizes of at least 1: `decryptPassword`, searching for
the fingerprint of the target, returns "Password Not Found!"; every execution of
`openMPDecryption` is finite and can be run to the end of the region, and every
complete execution returns "Password Not Found!". -/
theorem not_found_of_no_block_match (des : DESPrimitive) (salt target : String)
    (password_list : List String) (num_threads chunk_size : Nat)
    (hdes : des.IsBlockCipher salt)
    (hno : ∀ c ∈ password_list, inputBlock c ≠ inputBlock target)
    (hn : 1 ≤ num_threads) (hc : 1 ≤ chunk_size) :
    decryptPassword des (fingerprint des target salt) salt password_list =
        "Password Not Found!" ∧
      (∀ sched s, ompRun des (fingerprint des target salt) salt password_list num_threads
        chunk_size sched ompInit = some s →
        sched.length ≤ 4 * password_list.length + num_threads ∧
        ∃ rest, openMPDecryption des (fingerprint des target salt) salt password_list
          num_threads chunk_size (sched ++ rest) = some "Password Not Found!") ∧
      ∀ sched r, openMPDecryption des (fingerprint des target salt) salt password_list
        num_threads chunk_size sched = some r → r = "Password Not Found!" := by
  have hfp : ∀ c ∈ password_list, fingerprint des c salt ≠ fingerprint des target salt :=
    fun c hc h => hno c hc (inputBlock_eq_of_fingerprint des c target salt hdes h)
  have hall : ∀ sched r, openMPDecryption des (fingerprint des target salt) salt password_list
      num_threads chunk_size sched = some r → r = "Password Not Found!" :=
    fun sched r h => (openMPDecryption_sound des (fingerprint des target salt) salt
      password_list num_threads chunk_size hn sched r h).1 hfp
  refine ⟨decryptPassword_of_no_match des _ salt password_list hfp, ?_, hall⟩
  intro sched s hs
  obtain ⟨hlen, rest, r, h⟩ := openMPDecryption_terminates des (fingerprint des target salt)
    salt password_list num_threads chunk_size hc sched s hs
  exact ⟨hlen, rest, by rw [h, hall (sched ++ rest) r h]⟩

/-- Witness of C6 amended: "NOPE0000" searched in the list of the specification
with 2 workers and chunks of 1. -/
theorem not_found_of_no_block_match_witness :
    (∀ c ∈ ["aaaaaaa1", "Target01", "zzzzzzz9"], inputBlock c ≠ inputBlock "NOPE0000") ∧
    decryptPassword xorCipher (fingerprint xorCipher "NOPE0000" "Leonardo8") "Leonardo8"
        ["aaaaaaa1", "Target01", "zzzzzzz9"] = "Password Not Found!" ∧
      (∀ sched s, ompRun xorCipher (fingerprint xorCipher "NOPE0000" "Leonardo8") "Leonardo8"
        ["aaaaaaa1", "Target01", "zzzzzzz9"] 2 1 sched ompInit = some s →
        sched.length ≤ 4 * ["aaaaaaa1", "Target01", "zzzzzzz9"].length + 2 ∧
        ∃ rest, openMPDecryption xorCipher (fingerprint xorCipher "NOPE0000" "Leonardo8")
          "Leonardo8" ["aaaaaaa1", "Target01", "zzzzzzz9"] 2 1 (sched ++ rest) =
          some "Password Not Found!") ∧
      ∀ sched r, openMPDecryption xorCipher (fingerprint xorCipher "NOPE0000" "Leonardo8")
        "Leonardo8" ["aaaaaaa1", "Target01", "zzzzzzz9"] 2 1 sched = some r →
        r = "Password Not Found!" :=
  ⟨by decide, not_found_of_no_block_match xorCipher "Leonardo8" "NOPE0000"
    ["aaaaaaa1", "Target01", "zzzzzzz9"] 2 1 xorCipher_isBlockCipher (by decide) (by decide)
    (by decide)⟩

/-- C7. Along every execution of the parallel region, from any of its states
`s` to a later state `s1`: once `found` is true it stays true and
`decrypted_password` is not changed any more; the number of steps that assign
`decrypted_password` is at most 1, and 0 when `found` was already true; and
without such a step the slot and the flag are unchanged. -/
theorem found_set_once (des : DESPrimitive) (encrypted_password salt : String)
    (password_list : List String) (num_threads chunk_size : Nat)
    (sched : List Nat) (s s1 : OmpState)
    (hrun : ompRun des encrypted_password salt password_list num_threads chunk_size sched s =
      some s1) :
    (s.found = true → s1.found = true ∧ s1.decrypted_password = s.decrypted_password) ∧
      ompWriteCount des encrypted_password salt password_list num_threads chunk_size sched s ≤
        (if s.found then 0 else 1) ∧
      (ompWriteCount des encrypted_password salt password_list num_threads chunk_size sched s = 0 →
        s1.decrypted_password = s.decrypted_password ∧ s1.found = s.found) :=
  ompRun_slot des encrypted_password salt password_list num_threads chunk_size sched s s1 hrun

/-- Witness of C7: two threads that both match (indices 0 and 1 hold candidates
with the target fingerprint) and both reach the critical region; thread 1 wins,
the region of thread 0 writes nothing. -/
theorem found_set_once_witness :
    ∃ s1, ompRun xorCipher (fingerprint xorCipher "Target01" "Leonardo8") "Leonardo8"
        ["Target01X", "Target01"] 2 1 [0, 1, 0, 1, 1, 0] ompInit = some s1 ∧
      s1.found = true ∧ s1.decrypted_password = "Target01" ∧
      ompWriteCount xorCipher (fingerprint xorCipher "Target01" "Leonardo8") "Leonardo8"
        ["Target01X", "Target01"] 2 1 [0, 1, 0, 1, 1, 0] ompInit ≤ 1 := by
  obtain ⟨s1, h⟩ : ∃ s1, ompRun xorCipher (fingerprint xorCipher "Target01" "Leonardo8")
      "Leonardo8" ["Target01X", "Target01"] 2 1 [0, 1, 0, 1, 1, 0] ompInit = some s1 :=
    Option.isSome_iff_exists.mp (by decide)
  have hc := (found_set_once xorCipher (fingerprint xorCipher "Target01" "Leonardo8")
    "Leonardo8" ["Target01X", "Target01"] 2 1 [0, 1, 0, 1, 1, 0] ompInit s1 h).2.1
  refine ⟨s1, h, ?_, ?_, hc⟩
  · have hf : (ompRun xorCipher (fingerprint xorCipher "Target01" "Leonardo8")
        "Leonardo8" ["Target01X", "Target01"] 2 1 [0, 1, 0, 1, 1, 0] ompInit).map
        (·.found) = some true := by decide
    rw [h] at hf
    simpa using hf
  · have hd : (ompRun xorCipher (fingerprint xorCipher "Target01" "Leonardo8")
        "Leonardo8" ["Target01X", "Target01"] 2 1 [0, 1, 0, 1, 1, 0] ompInit).map
        (·.decrypted_password) = some "Target01" := by decide
    rw [h] at hd
    simpa using hd

/-! ### Experiment driver -/

theorem vectorErase_vectorInsert (v : List String) (pos : Nat) (x : String)
    (h : pos ≤ v.length) : vectorErase (vectorInsert v pos x) pos = v := by
  unfold vectorErase vectorInsert
  have hl : (v.take pos).length = pos := by simp [List.length_take, h]
  have h1 : List.take pos (v.take pos ++ x :: v.drop pos) = v.take pos := by
    rw [List.take_append_eq_append_take, hl]
    simp
  have h2 : List.drop (pos + 1) (v.take pos ++ x :: v.drop pos) = v.drop pos := by
    rw [List.drop_append_eq_append_drop, hl]
    simp
  rw [h1, h2, List.take_append_drop]

theorem seqPositions_getD (n e i : Nat) (hi : i < e - 1) :
    (seqPositions n e).getD i 0 = i * (n / e) := by
  unfold seqPositions
  rw [List.getD_eq_getElem _ _ (by simp; omega)]
  rw [List.getElem_append_left (by simpa using hi)]
  simp

theorem parPositions_getD (n e i : Nat) (hi : i < e) :
    (parPositions n e).getD i 0 = (n / e) * i + (n / e / 2) := by
  unfold parPositions
  rw [List.getD_eq_getElem _ _ (by simpa using hi)]
  simp

theorem seq_position_le (n e i : Nat) (hi : i < e - 1) : i * (n / e) ≤ n := by
  calc i * (n / e) ≤ e * (n / e) := Nat.mul_le_mul_right _ (by omega)
    _ ≤ n := Nat.mul_div_le n e

theorem par_position_le (n e i : Nat) (hi : i < e - 1) : (n / e) * i + (n / e / 2) ≤ n := by
  have h1 : n / e / 2 ≤ n / e := Nat.div_le_self _ _
  calc (n / e) * i + (n / e / 2) ≤ (n / e) * i + n / e := by omega
    _ = (n / e) * (i + 1) := by ring
    _ ≤ (n / e) * e := Nat.mul_le_mul_left _ (by omega)
    _ ≤ n := Nat.div_mul_le_self n e

theorem seqTrial_spec (des : DESPrimitive) (password salt : String) (executions : Nat)
    (elapsed : Nat → ℚ) (st : List String × List SeqTrial) (i : Nat) :
    (seqTrial des password salt (seqPositions st.1.length executions) executions elapsed
        st i).1 = st.1 ∧
      (seqTrial des password salt (seqPositions st.1.length executions) executions elapsed
        st i).2.map SeqTrial.call = st.2.map SeqTrial.call ++
        [(i, seqSearched password st.1 executions i, fingerprint des password salt,
          decryptPassword des (fingerprint des password salt) salt
            (seqSearched password st.1 executions i))] := by
  unfold seqTrial seqSearched
  by_cases hi : i < executions - 1
  · have hp := seqPositions_getD st.1.length executions i hi
    have hle := seq_position_le st.1.length executions i hi
    simp only [hi, if_true, hp, List.map_append, List.map_cons, List.map_nil, SeqTrial.call,
      Nat.mul_comm i]
    rw [Nat.mul_comm i] at hle
    exact ⟨vectorErase_vectorInsert _ _ _ hle, trivial⟩
  · simp [hi, SeqTrial.call]

theorem seqFold_spec (des : DESPrimitive) (password salt : String) (executions : Nat)
    (elapsed : Nat → ℚ) (password_list : List String) (is : List Nat) :
    ∀ st : List String × List SeqTrial, st.1 = password_list →
      (is.foldl (seqTrial des password salt (seqPositions password_list.length executions)
          executions elapsed) st).1 = password_list ∧
        (is.foldl (seqTrial des password salt (seqPositions password_list.length executions)
          executions elapsed) st).2.map SeqTrial.call = st.2.map SeqTrial.call ++
          is.map fun i =>
            (i, seqSearched password password_list executions i, fingerprint des password salt,
              decryptPassword des (fingerprint des password salt) salt
                (seqSearched password password_list executions i)) := by
  induction is with
  | nil => intro st hst; simp [hst]
  | cons i is ih =>
    intro st hst
    subst hst
    obtain ⟨h1, h2⟩ := seqTrial_spec des password salt executions elapsed st i
    obtain ⟨h3, h4⟩ := ih _ h1
    rw [List.foldl_cons]
    refine ⟨h3, ?_⟩
    rw [h4, h2]
    simp

theorem parTrial_spec (des : DESPrimitive) (password salt : String)
    (executions num_threads chunk_size : Nat)
    (elapsed : Nat → ℚ) (st : List String × List ℚ × List ParTrial) (i : Nat)
    (hie : i < executions) :
    (parTrial des password salt (parPositions st.1.length executions) executions num_threads
        chunk_size elapsed st i).1 = st.1 ∧
      (parTrial des password salt (parPositions st.1.length executions) executions num_threads
        chunk_size elapsed st i).2.2.map ParTrial.call = st.2.2.map ParTrial.call ++
        [(num_threads, chunk_size, i, parSearched password st.1 executions i,
          fingerprint des password salt)] := by
  unfold parTrial parSearched
  by_cases hi : i < executions - 1
  · have hp := parPositions_getD st.1.length executions i hie
    have hle := par_position_le st.1.length executions i hi
    simp only [hi, if_true, hp, List.map_append, List.map_cons, List.map_nil, ParTrial.call]
    exact ⟨vectorErase_vectorInsert _ _ _ hle, trivial⟩
  · simp [hi, ParTrial.call]

theorem parFold_spec (des : DESPrimitive) (password salt : String)
    (executions num_threads chunk_size : Nat)
    (elapsed : Nat → ℚ) (password_list : List String) (is : List Nat)
    (his : ∀ i ∈ is, i < executions) :
    ∀ st : List String × List ℚ × List ParTrial, st.1 = password_list →
      (is.foldl (parTrial des password salt (parPositions password_list.length executions)
          executions num_threads chunk_size elapsed) st).1 = password_list ∧
        (is.foldl (parTrial des password salt (parPositions password_list.length executions)
          executions num_threads chunk_size elapsed) st).2.2.map ParTrial.call =
          st.2.2.map ParTrial.call ++
          is.map fun i =>
            (num_threads, chunk_size, i, parSearched password password_list executions i,
              fingerprint des password salt) := by
  induction is with
  | nil => intro st hst; simp [hst]
  | cons i is ih =>
    intro st hst
    subst hst
    obtain ⟨h1, h2⟩ := parTrial_spec des password salt executions num_threads chunk_size
      elapsed st i (his i (List.mem_cons_self _ _))
    obtain ⟨h3, h4⟩ := ih (fun j hj => his j (List.mem_cons_of_mem _ hj)) _ h1
    rw [List.foldl_cons]
    refine ⟨h3, ?_⟩
    rw [h4, h2]
    simp

theorem parChunk_spec (des : DESPrimitive) (password salt : String)
    (executions num_threads : Nat) (elapsed : Nat → ℚ)
    (st : List String × ParallelResult × List ParTrial) (chunk_size : Nat) :
    (parChunk des password salt executions num_threads elapsed st chunk_size).1 = st.1 ∧
      (parChunk des password salt executions num_threads elapsed st chunk_size).2.2.map
          ParTrial.call = st.2.2.map ParTrial.call ++
        (List.range executions).map fun i =>
          (num_threads, chunk_size, i, parSearched password st.1 executions i,
            fingerprint des password salt) := by
  unfold parChunk
  exact parFold_spec des password salt executions num_threads chunk_size elapsed st.1
    (List.range executions) (fun i hi => List.mem_range.mp hi) (st.1, [], st.2.2) rfl

theorem parChunkFold_spec (des : DESPrimitive) (password salt : String)
    (executions num_threads : Nat) (elapsed : Nat → ℚ) (cs : List Nat) :
    ∀ st : List String × ParallelResult × List ParTrial,
      (cs.foldl (parChunk des password salt executions num_threads elapsed) st).1 = st.1 ∧
        (cs.foldl (parChunk des password salt executions num_threads elapsed) st).2.2.map
            ParTrial.call = st.2.2.map ParTrial.call ++
          cs.flatMap fun c => (List.range executions).map fun i =>
            (num_threads, c, i, parSearched password st.1 executions i,
              fingerprint des password salt) := by
  induction cs with
  | nil => intro st; simp
  | cons c cs ih =>
    intro st
    obtain ⟨h1, h2⟩ := parChunk_spec des password salt executions num_threads elapsed st c
    obtain ⟨h3, h4⟩ := ih (parChunk des password salt executions num_threads elapsed st c)
    rw [List.foldl_cons]
    refine ⟨h3.trans h1, ?_⟩
    rw [h4, h2, h1]
    simp

theorem parThreads_spec (des : DESPrimitive) (password salt : String) (executions : Nat)
    (elapsed : Nat → ℚ) (st : List String × List ParallelResult × List ParTrial)
    (num_threads : Nat) :
    (parThreads des password salt executions elapsed st num_threads).1 = st.1 ∧
      (parThreads des password salt executions elapsed st num_threads).2.2.map ParTrial.call =
        st.2.2.map ParTrial.call ++
        [500, 1000, 2000, 4000].flatMap fun c => (List.range executions).map fun i =>
          (num_threads, c, i, parSearched password st.1 executions i,
            fingerprint des password salt) := by
  unfold parThreads
  exact parChunkFold_spec des password salt executions num_threads elapsed
    [500, 1000, 2000, 4000]
    (st.1, { mean_times := [], execution_times := [], position := 0, chunk_sizes := [] }, st.2.2)

theorem parThreadsFold_spec (des : DESPrimitive) (password salt : String) (executions : Nat)
    (elapsed : Nat → ℚ) (ns : List Nat) :
    ∀ st : List String × List ParallelResult × List ParTrial,
      (ns.foldl (parThreads des password salt executions elapsed) st).1 = st.1 ∧
        (ns.foldl (parThreads des password salt executions elapsed) st).2.2.map ParTrial.call =
          st.2.2.map ParTrial.call ++
          ns.flatMap fun n => [500, 1000, 2000, 4000].flatMap fun c =>
            (List.range executions).map fun i =>
              (n, c, i, parSearched password st.1 executions i, fingerprint des password salt) := by
  induction ns with
  | nil => intro st; simp
  | cons n ns ih =>
    intro st
    obtain ⟨h1, h2⟩ := parThreads_spec des password salt executions elapsed st n
    obtain ⟨h3, h4⟩ := ih (parThreads des password salt executions elapsed st n)
    rw [List.foldl_cons]
    refine ⟨h3.trans h1, ?_⟩
    rw [h4, h2, h1]
    simp

/-! ### The claims on the experiment driver -/

/-- C8. For every list `L`, target and position `P <= length(L)`: inserting the
target at index `P` and erasing the element at index `P` gives back `L`, and so
does the trial body of `testSequential` and of `testParallel` (insert, search,
erase) run on `L` with `P` as the position of the trial. -/
theorem insert_search_erase_restores (des : DESPrimitive) (password salt : String)
    (password_list : List String) (P : Nat) (hP : P ≤ password_list.length) :
    vectorErase (vectorInsert password_list P password) P = password_list ∧
      (∀ (positions : List Nat) (executions : Nat) (elapsed : Nat → ℚ) (log : List SeqTrial)
        (i : Nat), i < executions - 1 → positions.getD i 0 = P →
        (seqTrial des password salt positions executions elapsed (password_list, log) i).1 =
          password_list) ∧
      (∀ (positions : List Nat) (executions num_threads chunk_size : Nat) (elapsed : Nat → ℚ)
        (times : List ℚ) (log : List ParTrial) (i : Nat),
        i < executions - 1 → positions.getD i 0 = P →
        (parTrial des password salt positions executions num_threads chunk_size elapsed
          (password_list, times, log) i).1 = password_list) := by
  have h := vectorErase_vectorInsert password_list P password hP
  refine ⟨h, ?_, ?_⟩
  · intro positions executions elapsed log i hi hp
    simp only [seqTrial, hi, if_true, hp]
    exact h
  · intro positions executions num_threads chunk_size elapsed times log i hi hp
    simp only [parTrial, hi, if_true, hp]
    exact h

/-- Witness of C8: insertion at the end of a list of two, `P = length(L)`. -/
theorem insert_search_erase_restores_witness :
    vectorErase (vectorInsert ["aaaaaaa1", "zzzzzzz9"] 2 "Target01") 2 =
        ["aaaaaaa1", "zzzzzzz9"] ∧
      (∀ (positions : List Nat) (executions : Nat) (elapsed : Nat → ℚ) (log : List SeqTrial)
        (i : Nat), i < executions - 1 → positions.getD i 0 = 2 →
        (seqTrial xorCipher "Target01" "Leonardo8" positions executions elapsed
          (["aaaaaaa1", "zzzzzzz9"], log) i).1 = ["aaaaaaa1", "zzzzzzz9"]) ∧
      (∀ (positions : List Nat) (executions num_threads chunk_size : Nat) (elapsed : Nat → ℚ)
        (times : List ℚ) (log : List ParTrial) (i : Nat),
        i < executions - 1 → positions.getD i 0 = 2 →
        (parTrial xorCipher "Target01" "Leonardo8" positions executions num_threads chunk_size
          elapsed (["aaaaaaa1", "zzzzzzz9"], times, log) i).1 = ["aaaaaaa1", "zzzzzzz9"]) :=
  insert_search_erase_restores xorCipher "Target01" "Leonardo8" ["aaaaaaa1", "zzzzzzz9"] 2
    (by decide)

/-- Counterexample to C9: the original list already holds the target. With 2
executions the final trial of `testSequential` (index 1) searches the original
list and returns "ParaComp", not the sentinel, under any cipher. -/
theorem final_trial_finds_listed_target :
    "ParaComp" ≠ "Password Not Found!" ∧
    ∀ des : DESPrimitive,
      ((testSequentialRun des "ParaComp" "Leonardo8" ["ParaComp", "aaaaaaa1"] 2
        (fun k => (k : ℚ))).2[1]?).map (fun tr => (tr.searched, tr.result)) =
        some (["ParaComp", "aaaaaaa1"], "ParaComp") := by
  refine ⟨by decide, fun des => ?_⟩
  simp [testSequentialRun, seqTrial, seqPositions, List.range, List.range.loop, vectorInsert,
    vectorErase, decryptPassword]

/-- C9, amended. For `executions = e >= 1` on any list of `n` candidates: the
trials of `testSequential` are the indices `0 .. e-1` in order, trial `i < e-1`
searching the original list with the target inserted at index `floor(n/e) * i`
and the final trial `e-1` the original list; the trials of `testParallel` are,
for every thread count and every chunk size in turn, the indices `0 .. e-1`,
trial `i < e-1` searching the original list with the target inserted at index
`floor(n/e) * i + floor(floor(n/e) / 2)` and the final trial the original list.
When no candidate of the original list has the fingerprint of the target, the
search of the original list returns "Password Not Found!", sequentially and in
every complete execution of `openMPDecryption`, of which there is one for each
team and chunk size of at least 1. -/
theorem target_placement (des : DESPrimitive) (password salt : String)
    (password_list : List String) (thread_counts : List Nat) (executions : Nat)
    (elapsed : Nat → ℚ) (he : 1 ≤ executions) :
    ((testSequentialRun des password salt password_list executions elapsed).2.map
        SeqTrial.call =
      (List.range executions).map fun i =>
        (i, seqSearched password password_list executions i, fingerprint des password salt,
          decryptPassword des (fingerprint des password salt) salt
            (seqSearched password password_list executions i))) ∧
    ((testParallelRun des password salt password_list thread_counts executions elapsed).2.2.map
        ParTrial.call =
      thread_counts.flatMap fun n => [500, 1000, 2000, 4000].flatMap fun c =>
        (List.range executions).map fun i =>
          (n, c, i, parSearched password password_list executions i,
            fingerprint des password salt)) ∧
    (executions - 1 < executions ∧
      seqSearched password password_list executions (executions - 1) = password_list ∧
      parSearched password password_list executions (executions - 1) = password_list) ∧
    ((∀ c ∈ password_list, fingerprint des c salt ≠ fingerprint des password salt) →
      decryptPassword des (fingerprint des password salt) salt password_list =
        "Password Not Found!" ∧
      (∀ num_threads chunk_size sched r,
        openMPDecryption des (fingerprint des password salt) salt password_list num_threads
          chunk_size sched = some r → r = "Password Not Found!") ∧
      (∀ num_threads chunk_size, 1 ≤ num_threads → 1 ≤ chunk_size →
        ∃ sched, openMPDecryption des (fingerprint des password salt) salt password_list
          num_threads chunk_size sched = some "Password Not Found!")) := by
  refine ⟨?_, ?_, ⟨by omega, by simp [seqSearched], by simp [parSearched]⟩, ?_⟩
  · have h := (seqFold_spec des password salt executions elapsed password_list
      (List.range executions) (password_list, []) rfl).2
    simpa [testSequentialRun] using h
  · have h := (parThreadsFold_spec des password salt executions elapsed thread_counts
      (password_list, [], [])).2
    simpa [testParallelRun] using h
  · intro hno
    have hall : ∀ num_threads chunk_size sched r,
        openMPDecryption des (fingerprint des password salt) salt password_list num_threads
          chunk_size sched = some r → r = "Password Not Found!" :=
      fun num_threads chunk_size sched r h =>
        openMPDecryption_of_no_match des _ salt password_list num_threads chunk_size sched r
          hno h
    refine ⟨decryptPassword_of_no_match des _ salt password_list hno, hall, ?_⟩
    intro num_threads chunk_size hn hc
    obtain ⟨sched, r, h⟩ := openMPDecryption_returns des (fingerprint des password salt) salt
      password_list num_threads chunk_size hc
    exact ⟨sched, by rw [h, hall num_threads chunk_size sched r h]⟩

/-- Witness of C9 amended: three executions on a list of three candidates
without the target, thread counts 2 and 4. -/
theorem target_placement_witness :
    1 ≤ 3 ∧
    (testSequentialRun xorCipher "ParaComp" "Leonardo8" ["aaaaaaa1", "Target01", "zzzzzzz9"] 3
        (fun k => (k : ℚ))).2.map (fun tr => (tr.i, tr.searched, tr.result)) =
      [(0, ["ParaComp", "aaaaaaa1", "Target01", "zzzzzzz9"], "ParaComp"),
       (1, ["aaaaaaa1", "ParaComp", "Target01", "zzzzzzz9"], "ParaComp"),
       (2, ["aaaaaaa1", "Target01", "zzzzzzz9"], "Password Not Found!")] ∧
    ((testParallelRun xorCipher "ParaComp" "Leonardo8" ["aaaaaaa1", "Target01", "zzzzzzz9"]
        [2, 4] 3 (fun k => (k : ℚ))).2.2.map ParTrial.call =
      [2, 4].flatMap fun n => [500, 1000, 2000, 4000].flatMap fun c =>
        (List.range 3).map fun i =>
          (n, c, i, parSearched "ParaComp" ["aaaaaaa1", "Target01", "zzzzzzz9"] 3 i,
            fingerprint xorCipher "ParaComp" "Leonardo8")) ∧
    (∀ c ∈ ["aaaaaaa1", "Target01", "zzzzzzz9"],
      fingerprint xorCipher c "Leonardo8" ≠ fingerprint xorCipher "ParaComp" "Leonardo8") ∧
    decryptPassword xorCipher (fingerprint xorCipher "ParaComp" "Leonardo8") "Leonardo8"
      ["aaaaaaa1", "Target01", "zzzzzzz9"] = "Password Not Found!" :=
  have h := target_placement xorCipher "ParaComp" "Leonardo8"
    ["aaaaaaa1", "Target01", "zzzzzzz9"] [2, 4] 3 (fun k => (k : ℚ)) (by decide)
  ⟨by decide, by decide, h.2.1, by decide, (h.2.2.2 (by decide)).1⟩

/-- C10, the code at a failing input: one thread count (2), 2 executions, the
clock reporting the duration `k` for the trial numbered `k`. The trials of the
configuration (2, 500) measured the durations 0 and 1 and those of (2, 4000)
measured 6 and 7; `testParallel` returns the single timing array [6, 7] for the
thread count, and `main` hands that array to `appendTestMetrics` for all four
chunk sizes. -/
theorem testParallel_keeps_last_chunk_times :
    (∀ des : DESPrimitive,
      configTimes (testParallelRun des "ParaComp" "Leonardo8" ["aaaaaaa1"] [2] 2
        (fun k => (k : ℚ))).2.2 2 500 = [0, 1]) ∧
    (∀ des : DESPrimitive,
      configTimes (testParallelRun des "ParaComp" "Leonardo8" ["aaaaaaa1"] [2] 2
        (fun k => (k : ℚ))).2.2 2 4000 = [6, 7]) ∧
    (∀ des : DESPrimitive,
      (testParallel des "ParaComp" "Leonardo8" ["aaaaaaa1"] [2] 2
        (fun k => (k : ℚ))).map (fun r => (r.chunk_sizes, r.execution_times)) =
        [([500, 1000, 2000, 4000], [6, 7])]) ∧
    (∀ des : DESPrimitive,
      mainParallelRows [2] (testParallel des "ParaComp" "Leonardo8" ["aaaaaaa1"] [2] 2
        (fun k => (k : ℚ))) =
        [(2, 500, [6, 7]), (2, 1000, [6, 7]), (2, 2000, [6, 7]), (2, 4000, [6, 7])]) :=
  ⟨fun _ => rfl, fun _ => rfl, fun _ => rfl, fun _ => rfl⟩

/-! ### Statistics: `appendTestMetrics` -/

/-- C15. Called with an empty timing array `appendTestMetrics` leaves the
metrics collection unchanged (no row is produced); called with a non-empty
timing array it appends exactly one row to the end of the collection. -/
theorem appendTestMetrics_rows (A : FloatArith) (metrics_vector : List TestMetrics)
    (execution_times : List Double) (num_threads chunk_size : Int) (sequential_time : Double)
    (password_position total_passwords : Int) (hne : execution_times ≠ []) :
    appendTestMetrics A metrics_vector [] num_threads chunk_size sequential_time
        password_position total_passwords = metrics_vector ∧
      ∃ row, appendTestMetrics A metrics_vector execution_times num_threads chunk_size
        sequential_time password_position total_passwords = metrics_vector ++ [row] := by
  refine ⟨rfl, ?_⟩
  cases execution_times with
  | nil => exact absurd rfl hne
  | cons first rest => exact ⟨_, rfl⟩

/-- Witness of C15: a second row appended to a collection of one row. -/
theorem appendTestMetrics_rows_witness :
    appendTestMetrics binary64
        [⟨1, 0, Double.finite 1, Double.finite 1, Double.finite 1, Double.finite 0,
          Double.finite 1, Double.finite 1, 5, 5⟩]
        [] 2 500 (Double.finite 1) 5 5 =
        [⟨1, 0, Double.finite 1, Double.finite 1, Double.finite 1, Double.finite 0,
          Double.finite 1, Double.finite 1, 5, 5⟩] ∧
      ∃ row, appendTestMetrics binary64
        [⟨1, 0, Double.finite 1, Double.finite 1, Double.finite 1, Double.finite 0,
          Double.finite 1, Double.finite 1, 5, 5⟩]
        [Double.finite 1, Double.finite 3] 2 500 (Double.finite 1) 5 5 =
        [⟨1, 0, Double.finite 1, Double.finite 1, Double.finite 1, Double.finite 0,
          Double.finite 1, Double.finite 1, 5, 5⟩] ++ [row] :=
  appendTestMetrics_rows binary64
    [⟨1, 0, Double.finite 1, Double.finite 1, Double.finite 1, Double.finite 0,
      Double.finite 1, Double.finite 1, 5, 5⟩]
    [Double.finite 1, Double.finite 3] 2 500 (Double.finite 1) 5 5 (by decide)

/-- Counterexample to C11: one sample of 1 second and the reference time
+infinity, in IEEE double arithmetic. The reference is positive and not finite;
the speedup recorded is +infinity, not 0. -/
theorem speedup_of_infinite_reference :
    (appendTestMetrics binary64 [] [Double.finite 1] 2 500 Double.posInf 0 1).map
        (fun row => (row.mean_time, row.speedup)) = [(Double.finite 1, Double.posInf)] ∧
      Double.posInf.isfinite = false ∧ Double.posInf ≠ Double.finite 0 := by
  decide!

/-- C11, amended. For every non-empty timing array, the row `appendTestMetrics`
appends has speedup = sequential_time / mean_time when `sequential_time > 0` and
`mean_time > 0` (comparisons of doubles: true of +infinity, false of NaN), and
speedup = 0 otherwise. -/
theorem speedup_spec (A : FloatArith) (metrics_vector : List TestMetrics)
    (execution_times : List Double) (num_threads chunk_size : Int) (sequential_time : Double)
    (password_position total_passwords : Int) (hne : execution_times ≠ []) :
    ∃ row, appendTestMetrics A metrics_vector execution_times num_threads chunk_size
        sequential_time password_position total_passwords = metrics_vector ++ [row] ∧
      ((Double.finite 0).lt sequential_time = true ∧ (Double.finite 0).lt row.mean_time = true →
        row.speedup = A.divide sequential_time row.mean_time) ∧
      (¬ ((Double.finite 0).lt sequential_time = true ∧
          (Double.finite 0).lt row.mean_time = true) → row.speedup = Double.finite 0) := by
  cases execution_times with
  | nil => exact absurd rfl hne
  | cons first rest =>
    refine ⟨_, rfl, ?_, ?_⟩
    · rintro ⟨h1, h2⟩
      simp only [h1, h2, Bool.and_self, if_true]
    · intro h
      have hv : ((Double.finite 0).lt sequential_time &&
          (Double.finite 0).lt (A.divide ((first :: rest).foldl A.plus (Double.finite 0))
            (Double.finite ((first :: rest).length : ℚ)))) = false := by
        simpa [Bool.and_eq_true] using h
      simp only [hv, Bool.false_eq_true, if_false]

/-- Witness of C11 amended: the scenario of the specification in arithmetic
without rounding, timings 0.10, 0.12, 0.11, 0.13 and reference 0.40: the mean is
0.115 and the speedup 0.40 / 0.115 = 80/23, about 3.478. -/
theorem speedup_spec_witness :
    (appendTestMetrics exactArith []
        [Double.finite (10 / 100), Double.finite (12 / 100), Double.finite (11 / 100),
          Double.finite (13 / 100)] 2 500 (Double.finite (40 / 100)) 0 100).map
        (fun row => (row.mean_time, row.speedup)) =
        [(Double.finite (115 / 1000), Double.finite (80 / 23))] ∧
    ∃ row, appendTestMetrics exactArith []
        [Double.finite (10 / 100), Double.finite (12 / 100), Double.finite (11 / 100),
          Double.finite (13 / 100)] 2 500 (Double.finite (40 / 100)) 0 100 = [] ++ [row] ∧
      ((Double.finite 0).lt (Double.finite (40 / 100)) = true ∧
          (Double.finite 0).lt row.mean_time = true →
        row.speedup = exactArith.divide (Double.finite (40 / 100)) row.mean_time) ∧
      (¬ ((Double.finite 0).lt (Double.finite (40 / 100)) = true ∧
          (Double.finite 0).lt row.mean_time = true) → row.speedup = Double.finite 0) :=
  ⟨by decide!, speedup_spec exactArith []
    [Double.finite (10 / 100), Double.finite (12 / 100), Double.finite (11 / 100),
      Double.finite (13 / 100)] 2 500 (Double.finite (40 / 100)) 0 100 (by decide)⟩

/-- A positive double divided by the zero that `num_threads = 0` converts to is
+infinity, in any arithmetic. -/
theorem divide_zero_of_pos (A : FloatArith) (x : Double)
    (hx : (Double.finite 0).lt x = true) :
    A.divide x (Double.finite ((0 : Int) : ℚ)) = Double.posInf := by
  cases x with
  | finite a =>
    have ha : 0 < a := by simpa [Double.lt] using hx
    simp [FloatArith.divide, ha, ne_of_gt ha]
  | posInf => simp [FloatArith.divide]
  | negInf => simp [Double.lt] at hx
  | nan => simp [Double.lt] at hx

/-- Counterexample to C12: one sample of 1 second and the reference time 1
second, in IEEE double arithmetic. With `num_threads = 0` the efficiency
recorded is 1 / 0 = +infinity, and with `num_threads = -2` it is -1/2; the claim
says 0 in both cases. -/
theorem efficiency_without_threads :
    (appendTestMetrics binary64 [] [Double.finite 1] 0 500 (Double.finite 1) 0 1).map
        (fun row => (row.speedup, row.efficiency)) = [(Double.finite 1, Double.posInf)] ∧
      (appendTestMetrics binary64 [] [Double.finite 1] (-2) 500 (Double.finite 1) 0 1).map
        (fun row => (row.speedup, row.efficiency)) =
        [(Double.finite 1, Double.finite (-1 / 2))] := by
  decide!

/-- C12, amended. For every non-empty timing array, the row `appendTestMetrics`
appends has efficiency = speedup / num_threads, the quotient of doubles, when
`sequential_time > 0` and `mean_time > 0`, whatever `num_threads` is; with
`num_threads = 0` that quotient is +infinity when the speedup is `> 0` and NaN
when the speedup is 0. Otherwise efficiency = 0 and speedup = 0. So
efficiency = speedup / num_threads whenever `num_threads > 0`, the quotient
0 / num_threads being 0. -/
theorem efficiency_spec (A : FloatArith) (metrics_vector : List TestMetrics)
    (execution_times : List Double) (num_threads chunk_size : Int) (sequential_time : Double)
    (password_position total_passwords : Int) (hne : execution_times ≠ []) :
    ∃ row, appendTestMetrics A metrics_vector execution_times num_threads chunk_size
        sequential_time password_position total_passwords = metrics_vector ++ [row] ∧
      ((Double.finite 0).lt sequential_time = true ∧ (Double.finite 0).lt row.mean_time = true →
        row.efficiency = A.divide row.speedup (Double.finite (num_threads : ℚ)) ∧
        (num_threads = 0 → (Double.finite 0).lt row.speedup = true →
          row.efficiency = Double.posInf) ∧
        (num_threads = 0 → row.speedup = Double.finite 0 → row.efficiency = Double.nan)) ∧
      (¬ ((Double.finite 0).lt sequential_time = true ∧
          (Double.finite 0).lt row.mean_time = true) →
        row.efficiency = Double.finite 0 ∧ row.speedup = Double.finite 0) ∧
      (0 < num_threads → A.div 0 (num_threads : ℚ) = Double.finite 0 →
        row.efficiency = A.divide row.speedup (Double.finite (num_threads : ℚ))) := by
  cases execution_times with
  | nil => exact absurd rfl hne
  | cons first rest =>
    refine ⟨_, rfl, ?_, ?_, ?_⟩
    · rintro ⟨h1, h2⟩
      simp only [h1, h2, Bool.and_self, if_true]
      refine ⟨trivial, ?_, ?_⟩
      · intro hn hpos
        subst hn
        exact divide_zero_of_pos A _ hpos
      · intro hn hzero
        subst hn
        rw [hzero]
        simp [FloatArith.divide]
    · intro h
      have hv : ((Double.finite 0).lt sequential_time &&
          (Double.finite 0).lt (A.divide ((first :: rest).foldl A.plus (Double.finite 0))
            (Double.finite ((first :: rest).length : ℚ)))) = false := by
        simpa [Bool.and_eq_true] using h
      simp only [hv, Bool.false_eq_true, if_false, and_self]
    · intro hn hz
      have hq : (num_threads : ℚ) ≠ 0 := by
        have : (0 : ℚ) < (num_threads : ℚ) := by exact_mod_cast hn
        exact ne_of_gt this
      cases hv : ((Double.finite 0).lt sequential_time &&
          (Double.finite 0).lt (A.divide ((first :: rest).foldl A.plus (Double.finite 0))
            (Double.finite ((first :: rest).length : ℚ)))) with
      | true => simp only [hv, if_true]
      | false =>
        simp only [hv, Bool.false_eq_true, if_false, FloatArith.divide, hq, hz]

/-- Witness of C12 amended: the scenario of the specification in arithmetic
without rounding: speedup 80/23 with 2 workers gives the efficiency 40/23,
about 1.739. -/
theorem efficiency_spec_witness :
    (appendTestMetrics exactArith []
        [Double.finite (10 / 100), Double.finite (12 / 100), Double.finite (11 / 100),
          Double.finite (13 / 100)] 2 500 (Double.finite (40 / 100)) 0 100).map
        (fun row => (row.speedup, row.efficiency)) =
        [(Double.finite (80 / 23), Double.finite (40 / 23))] ∧
    ∃ row, appendTestMetrics exactArith []
        [Double.finite (10 / 100), Double.finite (12 / 100), Double.finite (11 / 100),
          Double.finite (13 / 100)] 2 500 (Double.finite (40 / 100)) 0 100 = [] ++ [row] ∧
      ((Double.finite 0).lt (Double.finite (40 / 100)) = true ∧
          (Double.finite 0).lt row.mean_time = true →
        row.efficiency = exactArith.divide row.speedup (Double.finite ((2 : Int) : ℚ)) ∧
        ((2 : Int) = 0 → (Double.finite 0).lt row.speedup = true →
          row.efficiency = Double.posInf) ∧
        ((2 : Int) = 0 → row.speedup = Double.finite 0 → row.efficiency = Double.nan)) ∧
      (¬ ((Double.finite 0).lt (Double.finite (40 / 100)) = true ∧
          (Double.finite 0).lt row.mean_time = true) →
        row.efficiency = Double.finite 0 ∧ row.speedup = Double.finite 0) ∧
      ((0 : Int) < 2 → exactArith.div 0 ((2 : Int) : ℚ) = Double.finite 0 →
        row.efficiency = exactArith.divide row.speedup (Double.finite ((2 : Int) : ℚ))) :=
  ⟨by decide!, efficiency_spec exactArith []
    [Double.finite (10 / 100), Double.finite (12 / 100), Double.finite (11 / 100),
      Double.finite (13 / 100)] 2 500 (Double.finite (40 / 100)) 0 100 (by decide)⟩

/-- The two values of the efficiency for `num_threads = 0` under the guard, in
IEEE double arithmetic: with the timing 1 and the reference 1 the speedup is 1
and the efficiency +infinity; with the timing `2^1000` and the reference
`2^(-1074)` both times are positive, the speedup underflows to 0 and the
efficiency is 0 / 0 = NaN. -/
theorem efficiency_for_no_threads :
    (appendTestMetrics binary64 [] [Double.finite 1] 0 500 (Double.finite 1) 0 1).map
        (fun row => (row.speedup, row.efficiency)) = [(Double.finite 1, Double.posInf)] ∧
      (appendTestMetrics binary64 [] [Double.finite (twoPow 1000)] 0 500
        (Double.finite (twoPow (-1074))) 0 1).map
        (fun row => ((Double.finite 0).lt row.mean_time, row.speedup, row.efficiency)) =
        [(true, Double.finite 0, Double.nan)] := by
  decide!

/-! ### Statistics on finite samples -/

theorem exactArith_sound : exactArith.Sound where
  add_ne_nan := fun _ _ h => by simp [exactArith] at h
  sub_ne_nan := fun _ _ h => by simp [exactArith] at h
  div_ne_nan := fun _ _ _ h => by simp [exactArith] at h
  add_nonneg := fun a b ha hb => by simpa [exactArith, Double.le] using add_nonneg ha hb
  sq_nonneg := fun a => by simpa [exactArith, Double.le] using mul_self_nonneg a
  div_nonneg := fun a b ha hb => by
    simpa [exactArith, Double.le] using div_nonneg ha (le_of_lt hb)
  sqrt_nonneg := fun a _ => by simpa [exactArith, Double.le] using Rat.sqrt_nonneg a
  zero_div := fun b _ => by simp [exactArith]

theorem nonneg_iff (x : Double) :
    (Double.finite 0).le x = true ↔ (∃ a, x = Double.finite a ∧ 0 ≤ a) ∨ x = Double.posInf := by
  cases x <;> simp [Double.le]

theorem plus_nonneg (A : FloatArith) (hA : A.Sound) (x y : Double)
    (hx : (Double.finite 0).le x = true) (hy : (Double.finite 0).le y = true) :
    (Double.finite 0).le (A.plus x y) = true := by
  rcases (nonneg_iff x).mp hx with ⟨a, rfl, ha⟩ | rfl <;>
    rcases (nonneg_iff y).mp hy with ⟨b, rfl, hb⟩ | rfl
  · exact hA.add_nonneg a b ha hb
  · rfl
  · rfl
  · rfl

theorem plus_finite_ne_nan (A : FloatArith) (hA : A.Sound) (x : Double) (b : ℚ)
    (hx : x ≠ Double.nan) : A.plus x (Double.finite b) ≠ Double.nan := by
  cases x with
  | finite a => exact hA.add_ne_nan a b
  | posInf => simp [FloatArith.plus]
  | negInf => simp [FloatArith.plus]
  | nan => exact absurd rfl hx

theorem sum_ne_nan (A : FloatArith) (hA : A.Sound) (qs : List ℚ) :
    ∀ x : Double, x ≠ Double.nan →
      (qs.map Double.finite).foldl A.plus x ≠ Double.nan := by
  induction qs with
  | nil => intro x hx; simpa using hx
  | cons q qs ih =>
    intro x hx
    simp only [List.map_cons, List.foldl_cons]
    exact ih _ (plus_finite_ne_nan A hA x q hx)

theorem divide_ne_nan (A : FloatArith) (hA : A.Sound) (x : Double) (b : ℚ)
    (hx : x ≠ Double.nan) (hb : b ≠ 0) : A.divide x (Double.finite b) ≠ Double.nan := by
  cases x with
  | finite a => simpa [FloatArith.divide, hb] using hA.div_ne_nan a b hb
  | posInf =>
    simp only [FloatArith.divide]
    split_ifs <;> simp
  | negInf =>
    simp only [FloatArith.divide]
    split_ifs <;> simp
  | nan => exact absurd rfl hx

theorem pow2_minus_nonneg (A : FloatArith) (hA : A.Sound) (a : ℚ) (m : Double)
    (hm : m ≠ Double.nan) :
    (Double.finite 0).le (A.pow2 (A.minus (Double.finite a) m)) = true := by
  cases m with
  | finite b =>
    have h := hA.sub_ne_nan a b
    simp only [FloatArith.minus]
    cases hs : A.sub a b with
    | finite c => exact hA.sq_nonneg c
    | posInf => rfl
    | negInf => rfl
    | nan => exact absurd hs h
  | posInf => rfl
  | negInf => rfl
  | nan => exact absurd rfl hm

theorem divide_nonneg (A : FloatArith) (hA : A.Sound) (x : Double) (b : ℚ)
    (hx : (Double.finite 0).le x = true) (hb : 0 < b) :
    (Double.finite 0).le (A.divide x (Double.finite b)) = true := by
  rcases (nonneg_iff x).mp hx with ⟨a, rfl, ha⟩ | rfl
  · simpa [FloatArith.divide, ne_of_gt hb] using hA.div_nonneg a b ha hb
  · simp [FloatArith.divide, le_of_lt hb, Double.le]

theorem sqrtD_nonneg (A : FloatArith) (hA : A.Sound) (x : Double)
    (hx : (Double.finite 0).le x = true) : (Double.finite 0).le (A.sqrtD x) = true := by
  rcases (nonneg_iff x).mp hx with ⟨a, rfl, ha⟩ | rfl
  · simpa [FloatArith.sqrtD, not_lt.mpr ha] using hA.sqrt_nonneg a ha
  · rfl

/-- On finite samples the check `std::isfinite(time)` of the variance loop
always passes. -/
theorem variance_guard_finite (f : Double → Double → Double) (qs : List ℚ) :
    ∀ v : Double,
      (qs.map Double.finite).foldl (fun v time => if time.isfinite then f v time else v) v =
        (qs.map Double.finite).foldl f v := by
  induction qs with
  | nil => intro v; rfl
  | cons q qs ih =>
    intro v
    simp only [List.map_cons, List.foldl_cons, Double.isfinite, if_true]
    exact ih _

theorem variance_nonneg (A : FloatArith) (hA : A.Sound) (m : Double) (hm : m ≠ Double.nan)
    (qs : List ℚ) :
    ∀ v : Double, (Double.finite 0).le v = true →
      (Double.finite 0).le ((qs.map Double.finite).foldl
        (fun v x => A.plus v (A.pow2 (A.minus x m))) v) = true := by
  induction qs with
  | nil => intro v hv; simpa using hv
  | cons q qs ih =>
    intro v hv
    simp only [List.map_cons, List.foldl_cons]
    exact ih _ (plus_nonneg A hA _ _ hv (pow2_minus_nonneg A hA q m hm))

theorem min_element_finite (qs : List ℚ) :
    ∀ m : ℚ, ∃ q,
      (qs.map Double.finite).foldl (fun m x => if x.lt m then x else m) (Double.finite m) =
        Double.finite q ∧ q ∈ m :: qs ∧ q ≤ m ∧ ∀ q' ∈ qs, q ≤ q' := by
  induction qs with
  | nil => intro m; exact ⟨m, rfl, by simp, le_refl m, by simp⟩
  | cons x xs ih =>
    intro m
    simp only [List.map_cons, List.foldl_cons, Double.lt]
    by_cases hxm : x < m
    · obtain ⟨q, hq, hmem, hle, hall⟩ := ih x
      refine ⟨q, by simpa [hxm] using hq, ?_, le_trans hle (le_of_lt hxm), ?_⟩
      · exact List.mem_cons_of_mem _ hmem
      · intro q' hq'
        rcases List.mem_cons.mp hq' with rfl | h
        · exact hle
        · exact hall q' h
    · obtain ⟨q, hq, hmem, hle, hall⟩ := ih m
      refine ⟨q, by simpa [hxm] using hq, ?_, hle, ?_⟩
      · rcases List.mem_cons.mp hmem with rfl | h
        · exact List.mem_cons_self _ _
        · exact List.mem_cons_of_mem _ (List.mem_cons_of_mem _ h)
      · intro q' hq'
        rcases List.mem_cons.mp hq' with rfl | h
        · exact le_trans hle (not_lt.mp hxm)
        · exact hall q' h

theorem max_element_finite (qs : List ℚ) :
    ∀ m : ℚ, ∃ q,
      (qs.map Double.finite).foldl (fun m x => if m.lt x then x else m) (Double.finite m) =
        Double.finite q ∧ q ∈ m :: qs ∧ m ≤ q ∧ ∀ q' ∈ qs, q' ≤ q := by
  induction qs with
  | nil => intro m; exact ⟨m, rfl, by simp, le_refl m, by simp⟩
  | cons x xs ih =>
    intro m
    simp only [List.map_cons, List.foldl_cons, Double.lt]
    by_cases hxm : m < x
    · obtain ⟨q, hq, hmem, hle, hall⟩ := ih x
      refine ⟨q, by simpa [hxm] using hq, ?_, le_trans (le_of_lt hxm) hle, ?_⟩
      · exact List.mem_cons_of_mem _ hmem
      · intro q' hq'
        rcases List.mem_cons.mp hq' with rfl | h
        · exact hle
        · exact hall q' h
    · obtain ⟨q, hq, hmem, hle, hall⟩ := ih m
      refine ⟨q, by simpa [hxm] using hq, ?_, hle, ?_⟩
      · rcases List.mem_cons.mp hmem with rfl | h
        · exact List.mem_cons_self _ _
        · exact List.mem_cons_of_mem _ (List.mem_cons_of_mem _ h)
      · intro q' hq'
        rcases List.mem_cons.mp hq' with rfl | h
        · exact le_trans (not_lt.mp hxm) hle
        · exact hall q' h

/-- The arithmetic mean of rationals lies between a lower and an upper bound of
them. -/
theorem mean_between (qs : List ℚ) (hne : qs ≠ []) (lo hi : ℚ)
    (hlo : ∀ q ∈ qs, lo ≤ q) (hhi : ∀ q ∈ qs, q ≤ hi) :
    lo ≤ qs.sum / qs.length ∧ qs.sum / qs.length ≤ hi := by
  have hlen : (0 : ℚ) < qs.length := by
    have : 0 < qs.length := List.length_pos.mpr hne
    exact_mod_cast this
  have h1 : qs.length • lo ≤ qs.sum := List.card_nsmul_le_sum qs lo hlo
  have h2 : qs.sum ≤ qs.length • hi := List.sum_le_card_nsmul qs hi hhi
  rw [nsmul_eq_mul] at h1 h2
  constructor
  · rw [le_div_iff₀ hlen]
    linarith
  · rw [div_le_iff₀ hlen]
    linarith

theorem twoPow_pos (e : Int) : 0 < twoPow e := by
  unfold twoPow
  split_ifs <;> positivity

theorem round64pos_nonneg (a : ℚ) : (Double.finite 0).le (round64pos a) = true := by
  unfold round64pos
  simp only []
  split_ifs
  · rfl
  · simp only [Double.le, decide_eq_true_eq]
    exact mul_nonneg (Nat.cast_nonneg _) (le_of_lt (twoPow_pos _))

theorem round64_ne_nan (q : ℚ) : round64 q ≠ Double.nan := by
  unfold round64 round64pos
  simp only []
  split_ifs <;> simp [Double.neg]

theorem round64_nonneg (q : ℚ) (hq : 0 ≤ q) : (Double.finite 0).le (round64 q) = true := by
  unfold round64
  split_ifs with h0 hpos
  · simp [Double.le]
  · exact round64pos_nonneg q
  · exact absurd (lt_of_le_of_ne hq (Ne.symm h0)) hpos

theorem sqrt64_nonneg (q : ℚ) : (Double.finite 0).le (sqrt64 q) = true := by
  unfold sqrt64
  simp only []
  split_ifs <;> simp only [Double.le, decide_eq_true_eq, le_refl] <;>
    exact mul_nonneg (Nat.cast_nonneg _) (le_of_lt (twoPow_pos _))

/-- IEEE double arithmetic has the properties the statistics claims use. -/
theorem binary64_sound : binary64.Sound where
  add_ne_nan := fun a b => round64_ne_nan (a + b)
  sub_ne_nan := fun a b => round64_ne_nan (a - b)
  div_ne_nan := fun a b _ => round64_ne_nan (a / b)
  add_nonneg := fun a b ha hb => round64_nonneg (a + b) (add_nonneg ha hb)
  sq_nonneg := fun a => round64_nonneg (a * a) (mul_self_nonneg a)
  div_nonneg := fun a b ha hb => round64_nonneg (a / b) (div_nonneg ha (le_of_lt hb))
  sqrt_nonneg := fun a _ => sqrt64_nonneg a
  zero_div := fun b _ => by simp [binary64, round64]

theorem plus_nan (A : FloatArith) (x : Double) : A.plus x Double.nan = Double.nan := by
  cases x <;> rfl

/-- Counterexample to C13. For the timings [1, NaN] the stddev recorded is NaN,
in any arithmetic, and NaN is not `>= 0`. For the timing [+infinity], in IEEE
double arithmetic, the variance loop skips the sample and the stddev recorded
is 0, while the population standard deviation of the sample about its mean
+infinity is NaN. -/
theorem stddev_of_non_finite_samples :
    (∀ A : FloatArith,
      (appendTestMetrics A [] [Double.finite 1, Double.nan] 2 500 (Double.finite 1) 0 2).map
        (fun row => (row.mean_time, row.stddev)) = [(Double.nan, Double.nan)]) ∧
    (Double.finite 0).le Double.nan = false ∧
    (appendTestMetrics binary64 [] [Double.posInf] 2 500 (Double.finite 1) 0 1).map
        (fun row => (row.mean_time, row.stddev)) = [(Double.posInf, Double.finite 0)] ∧
    populationStddev binary64 [Double.posInf] Double.posInf = Double.nan := by
  refine ⟨fun A => ?_, rfl, by decide!, by decide!⟩
  simp [appendTestMetrics, plus_nan, FloatArith.divide, FloatArith.minus, FloatArith.pow2,
    FloatArith.sqrtD, Double.isfinite]

/-- C13, amended. For every non-empty timing array of finite samples
`x_1 .. x_n`, the stddev `appendTestMetrics` records is the population standard
deviation in the arithmetic of the machine, sqrt((sum of (x_i - mean)^2) / n)
with the divisor `n` and not `n - 1`, and it is `>= 0`. -/
theorem stddev_spec (A : FloatArith) (hA : A.Sound) (metrics_vector : List TestMetrics)
    (samples : List ℚ) (num_threads chunk_size : Int) (sequential_time : Double)
    (password_position total_passwords : Int) (hne : samples ≠ []) :
    ∃ row, appendTestMetrics A metrics_vector (samples.map Double.finite) num_threads
        chunk_size sequential_time password_position total_passwords =
        metrics_vector ++ [row] ∧
      row.stddev = A.sqrtD (A.divide
        ((samples.map Double.finite).foldl
          (fun v x => A.plus v (A.pow2 (A.minus x row.mean_time))) (Double.finite 0))
        (Double.finite (samples.length : ℚ))) ∧
      row.stddev = populationStddev A (samples.map Double.finite) row.mean_time ∧
      (Double.finite 0).le row.stddev = true := by
  cases samples with
  | nil => exact absurd rfl hne
  | cons q qs =>
    have hlen : (0 : ℚ) < (((q :: qs).map Double.finite).length : ℚ) := by
      simp only [List.map_cons, List.length_cons, List.length_map]
      positivity
    have hmean : A.divide (((q :: qs).map Double.finite).foldl A.plus (Double.finite 0))
        (Double.finite (((q :: qs).map Double.finite).length : ℚ)) ≠ Double.nan :=
      divide_ne_nan A hA _ _ (sum_ne_nan A hA (q :: qs) _ (by simp)) (ne_of_gt hlen)
    have hguard := variance_guard_finite
      (fun v x => A.plus v (A.pow2 (A.minus x
        (A.divide (((q :: qs).map Double.finite).foldl A.plus (Double.finite 0))
          (Double.finite (((q :: qs).map Double.finite).length : ℚ))))))
      (q :: qs) (Double.finite 0)
    have hvar := variance_nonneg A hA _ hmean (q :: qs) (Double.finite 0) (by simp [Double.le])
    have hstd := sqrtD_nonneg A hA _ (divide_nonneg A hA _ _ hvar hlen)
    simp only [List.map_cons] at hguard hstd
    refine ⟨_, rfl, ?_, ?_, ?_⟩
    · simp only [List.map_cons, List.length_cons, List.length_map] at hguard ⊢
      rw [hguard]
    · simp only [populationStddev, List.map_cons, List.length_cons, List.length_map] at hguard ⊢
      rw [hguard]
    · simp only [List.map_cons, List.length_cons, List.length_map] at hguard hstd ⊢
      rw [hguard]
      exact hstd

/-- Witness of C13 amended: the timings 1 and 3 in IEEE double arithmetic: the
mean is 2, the squared deviations sum to 2 and the stddev is sqrt(2 / 2) = 1. -/
theorem stddev_spec_witness :
    (appendTestMetrics binary64 [] ([1, 3].map Double.finite) 2 500 (Double.finite 1) 0 2).map
        (fun row => (row.mean_time, row.stddev)) = [(Double.finite 2, Double.finite 1)] ∧
    ∃ row, appendTestMetrics binary64 [] ([1, 3].map Double.finite) 2 500 (Double.finite 1)
        0 2 = [] ++ [row] ∧
      row.stddev = binary64.sqrtD (binary64.divide
        (([1, 3].map Double.finite).foldl
          (fun v x => binary64.plus v (binary64.pow2 (binary64.minus x row.mean_time)))
          (Double.finite 0))
        (Double.finite (([1, 3] : List ℚ).length : ℚ))) ∧
      row.stddev = populationStddev binary64 ([1, 3].map Double.finite) row.mean_time ∧
      (Double.finite 0).le row.stddev = true :=
  ⟨by decide!, stddev_spec binary64 binary64_sound [] [1, 3] 2 500 (Double.finite 1) 0 2
    (by decide)⟩

/-- In arithmetic without rounding the mean recorded is the exact arithmetic
mean of the samples. -/
theorem exactArith_sum (qs : List ℚ) :
    ∀ a : ℚ, (qs.map Double.finite).foldl exactArith.plus (Double.finite a) =
      Double.finite (a + qs.sum) := by
  induction qs with
  | nil => intro a; simp
  | cons q qs ih =>
    intro a
    simp only [List.map_cons, List.foldl_cons, List.sum_cons]
    have h : exactArith.plus (Double.finite a) (Double.finite q) = Double.finite (a + q) := rfl
    rw [h, ih (a + q), add_assoc]

theorem exactArith_mean (qs : List ℚ) (hne : qs ≠ []) :
    exactArith.divide ((qs.map Double.finite).foldl exactArith.plus (Double.finite 0))
        (Double.finite (qs.length : ℚ)) = Double.finite (qs.sum / qs.length) := by
  have hlen : (qs.length : ℚ) ≠ 0 := by
    have : 0 < qs.length := List.length_pos.mpr hne
    exact_mod_cast (Nat.pos_iff_ne_zero.mp this)
  rw [exactArith_sum qs 0, zero_add]
  simp [FloatArith.divide, hlen, exactArith]

/-- Counterexample to C14. For the timing [NaN] the row has min_time = NaN and
mean_time = NaN in any arithmetic, and `min_time <= mean_time` is false. For the
timings [0.1, 0.1, 0.1] (the double nearest to 0.1), in IEEE double arithmetic,
the sum is rounded up and mean_time is the next double above 0.1: mean_time is
greater than max_time. -/
theorem mean_outside_min_max :
    (∀ A : FloatArith,
      (appendTestMetrics A [] [Double.nan] 2 500 (Double.finite 1) 0 1).map
        (fun row => (row.min_time, row.mean_time, row.min_time.le row.mean_time)) =
        [(Double.nan, Double.nan, false)]) ∧
    (appendTestMetrics binary64 [] [round64 (1 / 10), round64 (1 / 10), round64 (1 / 10)]
        2 500 (Double.finite 1) 0 3).map
        (fun row => (row.max_time, row.mean_time, row.mean_time.le row.max_time)) =
      [(Double.finite (3602879701896397 / 36028797018963968),
        Double.finite (7205759403792795 / 72057594037927936), false)] := by
  refine ⟨fun A => ?_, by decide!⟩
  simp [appendTestMetrics, plus_nan, FloatArith.divide, Double.le]

/-- C14, amended. For every non-empty timing array of finite samples, the row
`appendTestMetrics` appends has min_time equal to the least sample, max_time
equal to the greatest sample and mean_time equal to the sum of the samples, added
up from 0.0 in the arithmetic of the machine, divided by their number; and
whenever that mean_time is the exact arithmetic mean of the samples (no rounding
error), `min_time <= mean_time <= max_time`. -/
theorem min_max_mean_spec (A : FloatArith) (metrics_vector : List TestMetrics)
    (samples : List ℚ) (num_threads chunk_size : Int) (sequential_time : Double)
    (password_position total_passwords : Int) (hne : samples ≠ []) :
    ∃ row, appendTestMetrics A metrics_vector (samples.map Double.finite) num_threads
        chunk_size sequential_time password_position total_passwords =
        metrics_vector ++ [row] ∧
      (∃ q ∈ samples, row.min_time = Double.finite q ∧ ∀ q' ∈ samples, q ≤ q') ∧
      (∃ q ∈ samples, row.max_time = Double.finite q ∧ ∀ q' ∈ samples, q' ≤ q) ∧
      row.mean_time = A.divide ((samples.map Double.finite).foldl A.plus (Double.finite 0))
        (Double.finite (samples.length : ℚ)) ∧
      (row.mean_time = Double.finite (samples.sum / samples.length) →
        row.min_time.le row.mean_time = true ∧ row.mean_time.le row.max_time = true) := by
  cases samples with
  | nil => exact absurd rfl hne
  | cons q qs =>
    obtain ⟨lo, hlo, hlomem, hlole, hloall⟩ := min_element_finite qs q
    obtain ⟨hi, hhi, hhimem, hhile, hhiall⟩ := max_element_finite qs q
    have hloall' : ∀ q' ∈ q :: qs, lo ≤ q' := by
      intro q' hq'
      rcases List.mem_cons.mp hq' with rfl | h
      · exact hlole
      · exact hloall q' h
    have hhiall' : ∀ q' ∈ q :: qs, q' ≤ hi := by
      intro q' hq'
      rcases List.mem_cons.mp hq' with rfl | h
      · exact hhile
      · exact hhiall q' h
    refine ⟨_, rfl, ⟨lo, hlomem, hlo, hloall'⟩, ⟨hi, hhimem, hhi, hhiall'⟩, ?_, ?_⟩
    · simp only [List.map_cons, List.length_cons, List.length_map]
    · intro hmean
      obtain ⟨h1, h2⟩ := mean_between (q :: qs) (by simp) lo hi hloall' hhiall'
      simp only [List.map_cons] at hmean
      rw [hmean, hlo, hhi]
      simp only [Double.le, decide_eq_true_eq]
      exact ⟨h1, h2⟩

/-- Witness of C14 amended: the timings of the specification in arithmetic
without rounding: min 0.10, max 0.13, mean 0.115. -/
theorem min_max_mean_spec_witness :
    (appendTestMetrics exactArith [] ([10 / 100, 12 / 100, 11 / 100, 13 / 100].map Double.finite)
        2 500 (Double.finite (40 / 100)) 0 100).map
        (fun row => (row.min_time, row.mean_time, row.max_time)) =
      [(Double.finite (10 / 100), Double.finite (115 / 1000), Double.finite (13 / 100))] ∧
    ∃ row, appendTestMetrics exactArith []
        ([10 / 100, 12 / 100, 11 / 100, 13 / 100].map Double.finite)
        2 500 (Double.finite (40 / 100)) 0 100 = [] ++ [row] ∧
      (∃ q ∈ ([10 / 100, 12 / 100, 11 / 100, 13 / 100] : List ℚ),
        row.min_time = Double.finite q ∧
          ∀ q' ∈ ([10 / 100, 12 / 100, 11 / 100, 13 / 100] : List ℚ), q ≤ q') ∧
      (∃ q ∈ ([10 / 100, 12 / 100, 11 / 100, 13 / 100] : List ℚ),
        row.max_time = Double.finite q ∧
          ∀ q' ∈ ([10 / 100, 12 / 100, 11 / 100, 13 / 100] : List ℚ), q' ≤ q) ∧
      row.mean_time = exactArith.divide
        (([10 / 100, 12 / 100, 11 / 100, 13 / 100].map Double.finite).foldl exactArith.plus
          (Double.finite 0))
        (Double.finite (([10 / 100, 12 / 100, 11 / 100, 13 / 100] : List ℚ).length : ℚ)) ∧
      (row.mean_time = Double.finite
          (([10 / 100, 12 / 100, 11 / 100, 13 / 100] : List ℚ).sum /
            ([10 / 100, 12 / 100, 11 / 100, 13 / 100] : List ℚ).length) →
        row.min_time.le row.mean_time = true ∧ row.mean_time.le row.max_time = true) :=
  ⟨by decide!, min_max_mean_spec exactArith [] [10 / 100, 12 / 100, 11 / 100, 13 / 100]
    2 500 (Double.finite (40 / 100)) 0 100 (by decide)⟩

/-! ### Report: `saveMetricsToCSV` -/

theorem max0_nonneg (x : Double) : (Double.finite 0).le (max0 x) = true := by
  cases x with
  | finite a =>
    by_cases h : 0 < a
    · simp [max0, Double.lt, Double.le, h, le_of_lt h]
    · simp [max0, Double.lt, Double.le, h]
  | posInf => rfl
  | negInf => rfl
  | nan => rfl

theorem max0_isfinite (x : Double) (h : x.isfinite = true) : (max0 x).isfinite = true := by
  cases x with
  | finite a =>
    by_cases h0 : 0 < a
    · simp [max0, Double.lt, Double.isfinite, h0]
    · simp [max0, Double.lt, Double.isfinite, h0]
  | posInf => simp [Double.isfinite] at h
  | negInf => simp [Double.isfinite] at h
  | nan => simp [Double.isfinite] at h

/-- What a written row is: the row of an input metric that passed the four
`std::isfinite` checks. -/
theorem csvRow_eq_some (test_type : String) (metric : TestMetrics) (row : CsvRow)
    (h : csvRow test_type metric = some row) :
    (metric.min_time.isfinite = true ∧ metric.max_time.isfinite = true ∧
        metric.mean_time.isfinite = true ∧ metric.stddev.isfinite = true) ∧
      row = { test_type := test_type, num_threads := metric.num_threads,
              chunk_size := metric.chunk_size, min_time := max0 metric.min_time,
              max_time := max0 metric.max_time, mean_time := max0 metric.mean_time,
              stddev := max0 metric.stddev, speedup := max0 metric.speedup,
              efficiency := max0 metric.efficiency,
              password_position := metric.password_position,
              total_passwords := metric.total_passwords } := by
  unfold csvRow at h
  split_ifs at h with hfin
  simp only [Bool.and_eq_true] at hfin
  exact ⟨⟨hfin.1.1.1, hfin.1.1.2, hfin.1.2, hfin.2⟩, (Option.some.inj h).symm⟩

theorem mem_rows (sequential_metrics : List TestMetrics)
    (parallel_metrics : List (List TestMetrics)) (row : CsvRow)
    (h : row ∈ (saveMetricsToCSV sequential_metrics parallel_metrics).2) :
    ∃ test_type metric,
      (metric ∈ sequential_metrics ∨ ∃ thread_metrics ∈ parallel_metrics,
        metric ∈ thread_metrics) ∧ csvRow test_type metric = some row := by
  simp only [saveMetricsToCSV, List.mem_append, List.mem_filterMap, List.mem_flatMap] at h
  rcases h with ⟨m, hm, hrow⟩ | ⟨tm, htm, m, hm, hrow⟩
  · exact ⟨"sequential", m, Or.inl hm, hrow⟩
  · exact ⟨"parallel", m, Or.inr ⟨tm, htm, hm⟩, hrow⟩

/-- Counterexample to C16: a sequential row with negative integer fields and a
parallel row with the speedup and the efficiency +infinity. Both pass the
checks of `std::isfinite` and are written, the first with its negative thread
count, chunk size, position and list size, the second with its two infinite
fields. -/
theorem row_written_with_negative_and_infinite_fields :
    (saveMetricsToCSV
        [⟨-2, -500, Double.finite 1, Double.finite 1, Double.finite 1, Double.finite 0,
          Double.finite 1, Double.finite 1, -1, -7⟩]
        [[⟨2, 500, Double.finite 1, Double.finite 1, Double.finite 1, Double.finite 0,
          Double.posInf, Double.posInf, 0, 1⟩]]).2 =
      [⟨"sequential", -2, -500, Double.finite 1, Double.finite 1, Double.finite 1,
          Double.finite 0, Double.finite 1, Double.finite 1, -1, -7⟩,
        ⟨"parallel", 2, 500, Double.finite 1, Double.finite 1, Double.finite 1,
          Double.finite 0, Double.posInf, Double.posInf, 0, 1⟩] ∧
      Double.posInf.isfinite = false := by
  decide!

/-- C16, amended. For every collection of sequential and parallel `TestMetrics`
passed to `saveMetricsToCSV`, every data row written has min, max, mean and
stddev finite and not negative, speedup and efficiency not negative (so not
NaN), and the thread count, chunk size, position and list size of the input row
it was written for, unchanged. -/
theorem written_rows_spec (sequential_metrics : List TestMetrics)
    (parallel_metrics : List (List TestMetrics)) (row : CsvRow)
    (hrow : row ∈ (saveMetricsToCSV sequential_metrics parallel_metrics).2) :
    (row.min_time.isfinite = true ∧ (Double.finite 0).le row.min_time = true) ∧
      (row.max_time.isfinite = true ∧ (Double.finite 0).le row.max_time = true) ∧
      (row.mean_time.isfinite = true ∧ (Double.finite 0).le row.mean_time = true) ∧
      (row.stddev.isfinite = true ∧ (Double.finite 0).le row.stddev = true) ∧
      (Double.finite 0).le row.speedup = true ∧
      (Double.finite 0).le row.efficiency = true ∧
      ∃ metric, (metric ∈ sequential_metrics ∨
          ∃ thread_metrics ∈ parallel_metrics, metric ∈ thread_metrics) ∧
        row.num_threads = metric.num_threads ∧ row.chunk_size = metric.chunk_size ∧
        row.password_position = metric.password_position ∧
        row.total_passwords = metric.total_passwords := by
  obtain ⟨test_type, metric, hmem, hcsv⟩ := mem_rows sequential_metrics parallel_metrics row hrow
  obtain ⟨⟨h1, h2, h3, h4⟩, rfl⟩ := csvRow_eq_some test_type metric row hcsv
  exact ⟨⟨max0_isfinite _ h1, max0_nonneg _⟩, ⟨max0_isfinite _ h2, max0_nonneg _⟩,
    ⟨max0_isfinite _ h3, max0_nonneg _⟩, ⟨max0_isfinite _ h4, max0_nonneg _⟩,
    max0_nonneg _, max0_nonneg _, metric, hmem, rfl, rfl, rfl, rfl⟩

/-- Witness of C16 amended: the second of two rows written, for an input with
a negative mean (clamped to 0) and an infinite efficiency. -/
theorem written_rows_spec_witness :
    ((Double.finite 0).isfinite = true ∧
        (Double.finite 0).le (Double.finite 0) = true) ∧
      ((Double.finite 3).isfinite = true ∧
        (Double.finite 0).le (Double.finite 3) = true) ∧
      ((Double.finite 0).isfinite = true ∧
        (Double.finite 0).le (Double.finite 0) = true) ∧
      ((Double.finite 1).isfinite = true ∧
        (Double.finite 0).le (Double.finite 1) = true) ∧
      (Double.finite 0).le (Double.finite 0) = true ∧
      (Double.finite 0).le Double.posInf = true ∧
      ∃ metric, (metric ∈ [(⟨1, 0, Double.finite 1, Double.finite 1, Double.finite 1,
            Double.finite 0, Double.finite 1, Double.finite 1, 5, 5⟩ : TestMetrics)] ∨
          ∃ thread_metrics ∈ [[(⟨0, 500, Double.finite (-2), Double.finite 3,
              Double.finite (-1), Double.finite 1, Double.nan, Double.posInf, 5, 5⟩ :
              TestMetrics)]],
            metric ∈ thread_metrics) ∧
        (0 : Int) = metric.num_threads ∧ (500 : Int) = metric.chunk_size ∧
        (5 : Int) = metric.password_position ∧ (5 : Int) = metric.total_passwords :=
  written_rows_spec
    [⟨1, 0, Double.finite 1, Double.finite 1, Double.finite 1, Double.finite 0,
      Double.finite 1, Double.finite 1, 5, 5⟩]
    [[⟨0, 500, Double.finite (-2), Double.finite 3, Double.finite (-1), Double.finite 1,
      Double.nan, Double.posInf, 5, 5⟩]]
    ⟨"parallel", 0, 500, Double.finite 0, Double.finite 3, Double.finite 0, Double.finite 1,
      Double.finite 0, Double.posInf, 5, 5⟩
    (by decide!)

/-- C17, the code at failing inputs. A row whose speedup and efficiency are
+infinity, and a row whose speedup and efficiency are NaN, pass the four checks
of `std::isfinite` and are written, the first with +infinity in both columns, the
second with 0 in both; a row whose mean is NaN is left out. The row
`appendTestMetrics` builds for 0 threads, with the efficiency 1 / 0 = +infinity,
is written as well. -/
theorem saveMetricsToCSV_keeps_infinite_ratios :
    (saveMetricsToCSV
        [⟨2, 500, Double.finite 1, Double.finite 1, Double.finite 1, Double.finite 0,
          Double.posInf, Double.posInf, 0, 1⟩,
         ⟨2, 500, Double.finite 1, Double.finite 1, Double.nan, Double.finite 0,
          Double.finite 1, Double.finite 1, 0, 1⟩,
         ⟨2, 500, Double.finite 1, Double.finite 1, Double.finite 1, Double.finite 0,
          Double.nan, Double.nan, 0, 1⟩] []).2 =
      [⟨"sequential", 2, 500, Double.finite 1, Double.finite 1, Double.finite 1,
          Double.finite 0, Double.posInf, Double.posInf, 0, 1⟩,
        ⟨"sequential", 2, 500, Double.finite 1, Double.finite 1, Double.finite 1,
          Double.finite 0, Double.finite 0, Double.finite 0, 0, 1⟩] ∧
    (saveMetricsToCSV []
        [appendTestMetrics binary64 [] [Double.finite 1] 0 500 (Double.finite 1) 0 1]).2 =
      [⟨"parallel", 0, 500, Double.finite 1, Double.finite 1, Double.finite 1,
          Double.finite 0, Double.finite 1, Double.posInf, 0, 1⟩] := by
  decide!

/-! ### The cache of the digest adapter and the sentinel -/

theorem cacheAfter_valid (des : DESPrimitive) (calls : List (String × String)) :
    ∀ cache : KeyCache, cache.Valid des → (cacheAfter des cache calls).Valid des := by
  induction calls with
  | nil => intro cache h; exact h
  | cons call calls ih =>
    intro cache h
    exact ih _ (generateDESHash_eq_fingerprint des cache h call.1 call.2).2

/-- C18. For every candidate `p`, every salt `s` of at least 8 bytes and every
sequence of earlier calls of `generateDESHash` on the same thread, with any
candidates and salts, the call `generateDESHash(p, s)` returns the token that a
call made with nothing cached returns: the token is a function of `(p, s)`, the
encryption of the block of `p` under the key schedule of the first 8 bytes of
`s`. -/
theorem generateDESHash_pure (des : DESPrimitive) (calls : List (String × String))
    (p s : String) (hs : 8 ≤ s.length) :
    (generateDESHash des (cacheAfter des KeyCache.fresh calls) p s).1 =
        (generateDESHash des KeyCache.fresh p s).1 ∧
      (generateDESHash des (cacheAfter des KeyCache.fresh calls) p s).1 =
        hexOutput (des.DES_ecb_encrypt (inputBlock p)
          (des.DES_set_key ((strBytes s).take 8))) := by
  have h := (generateDESHash_eq_fingerprint des _
    (cacheAfter_valid des calls _ (KeyCache.valid_fresh des)) p s).1
  have hlen : 8 ≤ (strBytes s).length := by
    have hl : s.toList.length = s.length := rfl
    simp only [strBytes, List.length_map, hl]
    exact hs
  have hkey : saltKey s = (strBytes s).take 8 := by
    unfold saltKey
    rw [List.take_append_of_le_length hlen]
  refine ⟨h, ?_⟩
  rw [h, fingerprint_eq, hkey]

/-- Witness of C18: a call after calls with another salt, with the same salt and
with a salt that has the same first 8 bytes. -/
theorem generateDESHash_pure_witness :
    (generateDESHash xorCipher
        (cacheAfter xorCipher KeyCache.fresh
          [("aaaaaaa1", "Leonardo8"), ("zzzzzzz9", "Salt1234"), ("Target01", "Salt12345")])
        "Target01" "Salt1234").1 =
        (generateDESHash xorCipher KeyCache.fresh "Target01" "Salt1234").1 ∧
      (generateDESHash xorCipher
        (cacheAfter xorCipher KeyCache.fresh
          [("aaaaaaa1", "Leonardo8"), ("zzzzzzz9", "Salt1234"), ("Target01", "Salt12345")])
        "Target01" "Salt1234").1 =
        hexOutput (xorCipher.DES_ecb_encrypt (inputBlock "Target01")
          (xorCipher.DES_set_key ((strBytes "Salt1234").take 8))) :=
  generateDESHash_pure xorCipher
    [("aaaaaaa1", "Leonardo8"), ("zzzzzzz9", "Salt1234"), ("Target01", "Salt12345")]
    "Target01" "Salt1234" (by decide)

/-- Counterexample to C19: the list holds the candidate "Password Not Found!",
whose first 8 bytes are "Password", and the target is "Password". The candidate
has the target fingerprint under any cipher, both searches find it and return
it, and the value returned is the string "Password Not Found!". -/
theorem sentinel_returned_for_a_match :
    "Password Not Found!" ∈ ["Password Not Found!"] ∧
    (∀ des : DESPrimitive,
      fingerprint des "Password Not Found!" "Leonardo8" =
        fingerprint des "Password" "Leonardo8") ∧
    (∀ des : DESPrimitive,
      decryptPassword des (fingerprint des "Password" "Leonardo8") "Leonardo8"
        ["Password Not Found!"] = "Password Not Found!") ∧
    (∀ des : DESPrimitive,
      openMPDecryption des (fingerprint des "Password" "Leonardo8") "Leonardo8"
        ["Password Not Found!"] 1 1 [0, 0, 0] = some "Password Not Found!") := by
  have h : ∀ des : DESPrimitive,
      fingerprint des "Password Not Found!" "Leonardo8" =
        fingerprint des "Password" "Leonardo8" :=
    fun des => fingerprint_of_inputBlock_eq des _ _ _ (by decide)
  refine ⟨by decide, h, fun des => ?_, fun des => ?_⟩
  · simp [decryptPassword, h des]
  · simp [openMPDecryption, ompRun, ompStep, ompInit, ompFinished, Function.update,
      List.range, List.range.loop, h des]

/-- C19, amended. For every candidate list, salt and target fingerprint such
that the string "Password Not Found!" is not itself a candidate of the list with
the target fingerprint: if `decryptPassword`, or `openMPDecryption` with at
least one worker under any interleaving, returns "Password Not Found!", then no
candidate of the list has the target fingerprint. -/
theorem sentinel_unambiguous (des : DESPrimitive) (encrypted_password salt : String)
    (password_list : List String) (num_threads chunk_size : Nat) (hn : 1 ≤ num_threads)
    (hs : "Password Not Found!" ∈ password_list →
      fingerprint des "Password Not Found!" salt ≠ encrypted_password) :
    (decryptPassword des encrypted_password salt password_list = "Password Not Found!" →
        ∀ c ∈ password_list, fingerprint des c salt ≠ encrypted_password) ∧
      ∀ sched, openMPDecryption des encrypted_password salt password_list num_threads
        chunk_size sched = some "Password Not Found!" →
        ∀ c ∈ password_list, fingerprint des c salt ≠ encrypted_password := by
  constructor
  · intro hres c hc hfp
    obtain ⟨i, c0, hi, hfc, hlt⟩ := exists_first_match des encrypted_password salt
      password_list ⟨c, hc, hfp⟩
    have hc0 := decryptPassword_of_first_match des encrypted_password salt password_list
      i c0 hi hfc hlt
    rw [hres] at hc0
    subst hc0
    exact hs (List.mem_iff_getElem?.mpr ⟨i, hi⟩) hfc
  · intro sched hres c hc hfp
    obtain ⟨hr, hfr⟩ := (openMPDecryption_sound des encrypted_password salt password_list
      num_threads chunk_size hn sched _ hres).2 ⟨c, hc, hfp⟩
    exact hs hr hfr

/-- Witness of C19 amended: "NOPE0000" searched in the list of the
specification, 2 workers and chunks of 1. -/
theorem sentinel_unambiguous_witness :
    (decryptPassword xorCipher (fingerprint xorCipher "NOPE0000" "Leonardo8") "Leonardo8"
        ["aaaaaaa1", "Target01", "zzzzzzz9"] = "Password Not Found!" →
        ∀ c ∈ ["aaaaaaa1", "Target01", "zzzzzzz9"],
          fingerprint xorCipher c "Leonardo8" ≠ fingerprint xorCipher "NOPE0000" "Leonardo8") ∧
      ∀ sched, openMPDecryption xorCipher (fingerprint xorCipher "NOPE0000" "Leonardo8")
        "Leonardo8" ["aaaaaaa1", "Target01", "zzzzzzz9"] 2 1 sched =
          some "Password Not Found!" →
        ∀ c ∈ ["aaaaaaa1", "Target01", "zzzzzzz9"],
          fingerprint xorCipher c "Leonardo8" ≠ fingerprint xorCipher "NOPE0000" "Leonardo8" :=
  sentinel_unambiguous xorCipher (fingerprint xorCipher "NOPE0000" "Leonardo8") "Leonardo8"
    ["aaaaaaa1", "Target01", "zzzzzzz9"] 2 1 (by decide) (by decide)

end DESPasswordDecryption
